import Mathlib

/-!
# Verification of the graph-core of Biophysics-KGG-V2

A shallow embedding, in Lean 4, of the algorithmic core of the
Biophysics-KGG-V2 knowledge-graph application:

* `TP` — `src/utils/textProcessor.ts`: `connectIsolatedNodes` (the
  connectivity repairer) and `calculateNodeSimilarity`;
* `GA` — `src/utils/graphAnalytics.ts`: `analyzeGraph`,
  `calculateCentrality` (PageRank), `calculateLinkWeights`,
  `detectCommunities`;
* `FG` — `src/components/ForceGraph`: `useNeighborMap`,
  `useGraphHighlight` (pathway mode), `calculateLinkCurvature`,
  `applyAutoLayout` (layout selection).

Modelling conventions:

* JavaScript `number` is modelled by `ℚ` (all arithmetic in the core is
  exact on the inputs of interest); `string` by `String`.
* `Map<string, T>` is modelled by a function `String → Option T`
  (`none` = key absent); `Set<string>` by a `List String` without
  duplicates, in insertion order (`insertUniq`).
* Every link in the code may carry either a node id or a node object in
  `source`/`target`; the code always immediately projects to the id
  (`typeof l.source === 'string' ? l.source : l.source.id`), so links
  are modelled with `String` endpoints.
* The recursive DFS/BFS traversals are modelled with an explicit fuel
  parameter; the fuel values supplied at call sites are proved
  sufficient, so the models compute exactly what the (terminating)
  JavaScript recursions compute.
-/

namespace KGG

/-- `Set.add`: append an element to an insertion-ordered set unless present. -/
def insertUniq (l : List String) (x : String) : List String :=
  if x ∈ l then l else l ++ [x]

theorem mem_insertUniq {l : List String} {x y : String} :
    y ∈ insertUniq l x ↔ y ∈ l ∨ y = x := by
  unfold insertUniq
  by_cases h : x ∈ l
  · simp only [if_pos h]
    constructor
    · exact Or.inl
    · rintro (hy | rfl) <;> [exact hy; exact h]
  · simp [if_neg h]

theorem subset_insertUniq (l : List String) (x : String) : l ⊆ insertUniq l x := by
  intro y hy; exact mem_insertUniq.mpr (Or.inl hy)

/-- `map.get(k)?.add(v)`: add `v` to the set stored at key `k`, if the key
is present (a no-op otherwise). -/
def adjAdd (m : String → Option (List String)) (k v : String) :
    String → Option (List String) :=
  fun x => if x = k then (m k).map (fun s => insertUniq s v) else m x

/-- The adjacency-map construction shared (verbatim, modulo field access) by
`connectIsolatedNodes`, `detectCommunities` and `useNeighborMap`: initialise
an empty set for every node id, then for every link `(s, t)` do
`map.get(s)?.add(t); map.get(t)?.add(s)`. -/
def buildAdjMap (ids : List String) (edges : List (String × String)) :
    String → Option (List String) :=
  edges.foldl (fun m e => adjAdd (adjAdd m e.1 e.2) e.2 e.1)
    (fun x => if x ∈ ids then some [] else none)

theorem adjAdd_isSome (m : String → Option (List String)) (k v x : String) :
    ((adjAdd m k v) x).isSome = (m x).isSome := by
  unfold adjAdd
  by_cases h : x = k
  · subst h; simp
  · simp [h]

theorem mem_adjAdd {m : String → Option (List String)} {k v x b : String} :
    b ∈ ((adjAdd m k v) x).getD [] ↔
      b ∈ (m x).getD [] ∨ (x = k ∧ (m k).isSome ∧ b = v) := by
  unfold adjAdd
  by_cases h : x = k
  · subst h
    cases hm : m x with
    | none => simp [hm]
    | some s => simp [hm, mem_insertUniq]
  · simp [h]

theorem foldl_adjAdd_isSome (edges : List (String × String))
    (m : String → Option (List String)) (x : String) :
    ((edges.foldl (fun m e => adjAdd (adjAdd m e.1 e.2) e.2 e.1) m) x).isSome
      = (m x).isSome := by
  induction edges generalizing m with
  | nil => rfl
  | cons e es ih =>
    rw [List.foldl_cons, ih]
    rw [adjAdd_isSome, adjAdd_isSome]

theorem buildAdjMap_isSome (ids : List String) (edges : List (String × String)) (x : String) :
    ((buildAdjMap ids edges) x).isSome = decide (x ∈ ids) := by
  unfold buildAdjMap
  rw [foldl_adjAdd_isSome]
  by_cases h : x ∈ ids <;> simp [h]

theorem foldl_adjAdd_mem (edges : List (String × String))
    (m : String → Option (List String)) (a b : String) :
    b ∈ ((edges.foldl (fun m e => adjAdd (adjAdd m e.1 e.2) e.2 e.1) m) a).getD []
      ↔ b ∈ (m a).getD [] ∨
        ((m a).isSome ∧ ∃ e ∈ edges, (e.1 = a ∧ e.2 = b) ∨ (e.2 = a ∧ e.1 = b)) := by
  induction edges generalizing m with
  | nil => simp
  | cons e es ih =>
    rw [List.foldl_cons, ih]
    simp only [mem_adjAdd, adjAdd_isSome, List.mem_cons]
    aesop

/-- Characterisation of the built adjacency map: `b` is recorded as a
neighbour of `a` iff `a` is a node id and some edge joins `a` and `b`
(in either direction). -/
theorem mem_buildAdjMap (ids : List String) (edges : List (String × String)) (a b : String) :
    b ∈ ((buildAdjMap ids edges) a).getD []
      ↔ a ∈ ids ∧ ∃ e ∈ edges, (e.1 = a ∧ e.2 = b) ∨ (e.2 = a ∧ e.1 = b) := by
  unfold buildAdjMap
  rw [foldl_adjAdd_mem]
  by_cases h : a ∈ ids <;> simp [h]

/-! ## Reachability over an adjacency function -/

/-- One-step adjacency: `b` is listed among the neighbours of `a`. -/
def adjRel (adj : String → List String) (a b : String) : Prop := b ∈ adj a

/-- Reachability: reflexive-transitive closure of one-step adjacency. -/
def Reach (adj : String → List String) : String → String → Prop :=
  Relation.ReflTransGen (adjRel adj)

/-- A visited set is closed when no neighbour escapes it. -/
def Closed (adj : String → List String) (V : List String) : Prop :=
  ∀ u ∈ V, ∀ w ∈ adj u, w ∈ V

theorem Reach.refl (adj : String → List String) (a : String) : Reach adj a a :=
  Relation.ReflTransGen.refl

theorem reach_mem_of_closed {adj : String → List String} {V : List String}
    {u w : String} (hC : Closed adj V) (hu : u ∈ V) (h : Reach adj u w) : w ∈ V := by
  induction h with
  | refl => exact hu
  | tail _ h2 ih => exact hC _ ih _ h2

theorem reach_symm {adj : String → List String}
    (hsym : ∀ a b, adjRel adj a b → adjRel adj b a) {a b : String}
    (h : Reach adj a b) : Reach adj b a :=
  Relation.ReflTransGen.symmetric hsym h

/-! ## Fuel bookkeeping for the recursive traversals -/

/-- Number of ids of the (finite) relevant universe not yet visited; the
decreasing measure of the recursive DFS. -/
def unvisited (univ V : List String) : Nat :=
  univ.countP (fun x => decide (x ∉ V))

theorem unvisited_le_of_subset {univ V V' : List String} (h : V ⊆ V') :
    unvisited univ V' ≤ unvisited univ V := by
  apply List.countP_mono_left
  intro x _ hx
  simp only [decide_eq_true_eq] at hx ⊢
  exact fun hxV => hx (h hxV)

theorem unvisited_lt {univ V V' : List String} {v : String} (hsub : V ⊆ V')
    (hv_univ : v ∈ univ) (hv_old : v ∉ V) (hv_new : v ∈ V') :
    unvisited univ V' < unvisited univ V := by
  induction univ with
  | nil => cases hv_univ
  | cons a l ih =>
    rw [unvisited, unvisited, List.countP_cons, List.countP_cons]
    rcases List.mem_cons.mp hv_univ with rfl | hvl
    · have h1 : decide (v ∉ V') = false := by simp [hv_new]
      have h2 : decide (v ∉ V) = true := by simp [hv_old]
      rw [h1, h2]
      rw [if_neg (by decide : ¬(false = true)), if_pos rfl]
      have := @unvisited_le_of_subset l V V' hsub
      unfold unvisited at this
      omega
    · have hle : (if decide (a ∉ V') = true then 1 else 0) ≤
          (if decide (a ∉ V) = true then 1 else 0) := by
        split_ifs with hx hy
        · omega
        · simp only [decide_eq_true_eq] at hx hy
          exact absurd (fun haV => hx (hsub haV)) hy
        · omega
        · omega
      have := ih hvl
      unfold unvisited at this
      omega

/-! ## The recursive depth-first traversal

`connectIsolatedNodes` (component collection) and `detectCommunities`
(community assignment) share the same recursion:

```
function dfs(nodeId, acc) {
  visited.add(nodeId);
  <accumulate nodeId into acc>;
  adjacencyMap.get(nodeId)?.forEach(neighbor => {
    if (!visited.has(neighbor)) dfs(neighbor, acc);
  });
}
```

We model it once, generically in the accumulator operation `add`
(component building appends the id to a list; community assignment
records `communities[nodeId] = communityId`), with an explicit fuel
parameter (every call site supplies fuel proved sufficient below). -/

def dfsGen {σ : Type} (adj : String → List String) (add : σ → String → σ) :
    Nat → String → List String × σ → List String × σ
  | 0, _, st => st
  | fuel+1, v, st =>
    let st1 := (insertUniq st.1 v, add st.2 v)
    (adj v).foldl (fun st w => if w ∈ st.1 then st else dfsGen adj add fuel w st) st1

/-- Postcondition of one DFS call from root `v` in state `st`:
the visited set grows monotonically, everything newly visited is
reachable from `v`, every newly visited node has been fully expanded,
and the accumulator received exactly the newly visited ids in visit
order. -/
structure DfsPost {σ : Type} (adj : String → List String) (add : σ → String → σ)
    (v : String) (st r : List String × σ) : Prop where
  sub : st.1 ⊆ r.1
  root_mem : v ∈ r.1
  reach : ∀ u ∈ r.1, u ∈ st.1 ∨ Reach adj v u
  closed_new : ∀ u ∈ r.1, u ∉ st.1 → ∀ w ∈ adj u, w ∈ r.1
  trace : ∃ δ, r.1 = st.1 ++ v :: δ ∧ r.2 = (v :: δ).foldl add st.2 ∧
    ∀ u ∈ v :: δ, u ∉ st.1

theorem dfsGen_post {σ : Type} (adj : String → List String) (univ : List String)
    (add : σ → String → σ) (hadj : ∀ x, ∀ w ∈ adj x, w ∈ univ) :
    ∀ (fuel : Nat) (v : String) (st : List String × σ), v ∈ univ → v ∉ st.1 →
      unvisited univ st.1 < fuel →
      DfsPost adj add v st (dfsGen adj add fuel v st) := by
  intro fuel
  induction fuel with
  | zero => intro v st _ _ hlt; omega
  | succ fuel IH =>
    intro v st hv_univ hv_new hfuel
    -- the state right after marking the root
    have hmark : insertUniq st.1 v = st.1 ++ [v] := by
      unfold insertUniq; rw [if_neg hv_new]
    -- invariant of the fold over the root's neighbour list
    set f : List String × σ → String → List String × σ :=
      fun st w => if w ∈ st.1 then st else dfsGen adj add fuel w st with hf
    let Inv : List String × σ → Prop := fun s =>
      (∃ δ, s.1 = st.1 ++ v :: δ ∧ s.2 = (v :: δ).foldl add st.2 ∧
        ∀ u ∈ v :: δ, u ∉ st.1) ∧
      (∀ u ∈ s.1, u ∈ st.1 ∨ Reach adj v u) ∧
      (∀ u ∈ s.1, u ∉ st.1 → u ≠ v → ∀ w ∈ adj u, w ∈ s.1)
    have hfold : ∀ (ws : List String), (∀ w ∈ ws, w ∈ adj v) →
        ∀ s, Inv s → Inv (ws.foldl f s) ∧ s.1 ⊆ (ws.foldl f s).1 ∧
          ∀ w ∈ ws, w ∈ (ws.foldl f s).1 := by
      intro ws
      induction ws with
      | nil => intro _ s hs; exact ⟨hs, fun _ h => h, by intro w hw; cases hw⟩
      | cons w ws ihws =>
        intro hws s hInv
        rw [List.foldl_cons]
        by_cases hw : w ∈ s.1
        · have hstep : f s w = s := by rw [hf]; simp [hw]
          rw [hstep]
          obtain ⟨hInv', hsub', hmem'⟩ :=
            ihws (fun x hx => hws x (List.mem_cons_of_mem _ hx)) s hInv
          refine ⟨hInv', hsub', ?_⟩
          intro x hx
          rcases List.mem_cons.mp hx with rfl | hx
          · exact hsub' hw
          · exact hmem' x hx
        · have hstep : f s w = dfsGen adj add fuel w s := by rw [hf]; simp [hw]
          rw [hstep]
          obtain ⟨⟨δ, hδ1, hδ2, hδ3⟩, hreach, hclosed⟩ := hInv
          -- fuel is sufficient for the nested call
          have hv_mem_s : v ∈ s.1 := by
            rw [hδ1]; exact List.mem_append_right _ (List.mem_cons_self _ _)
          have hsub_s : st.1 ⊆ s.1 := by
            rw [hδ1]; exact fun x hx => List.mem_append_left _ hx
          have hfuel' : unvisited univ s.1 < fuel := by
            have := unvisited_lt hsub_s hv_univ hv_new hv_mem_s
            omega
          have hpost := IH w s (hadj v w (hws w (List.mem_cons_self _ _))) hw hfuel'
          obtain ⟨δ', hδ'1, hδ'2, hδ'3⟩ := hpost.trace
          have hreach_vw : Reach adj v w :=
            Relation.ReflTransGen.single (hws w (List.mem_cons_self _ _))
          -- re-establish the invariant for the post-call state
          have hInv' : Inv (dfsGen adj add fuel w s) := by
            refine ⟨⟨δ ++ w :: δ', ?_, ?_, ?_⟩, ?_, ?_⟩
            · rw [hδ'1, hδ1]; simp
            · rw [hδ'2, hδ2]
              have : (v :: (δ ++ w :: δ')) = (v :: δ) ++ (w :: δ') := by simp
              rw [this, List.foldl_append]
            · intro u hu
              rcases List.mem_cons.mp hu with rfl | hu
              · exact hδ3 u (List.mem_cons_self _ _)
              · rcases List.mem_append.mp hu with hu | hu
                · exact hδ3 u (List.mem_cons_of_mem _ hu)
                · exact fun hcon => hδ'3 u hu (hsub_s hcon)
            · intro u hu
              rcases hpost.reach u hu with hu' | hu'
              · exact hreach u hu'
              · exact Or.inr (Relation.ReflTransGen.trans hreach_vw hu')
            · intro u hu hu_old hu_ne w' hw'
              by_cases hus : u ∈ s.1
              · exact hpost.sub (hclosed u hus hu_old hu_ne w' hw')
              · exact hpost.closed_new u hu hus w' hw'
          obtain ⟨hInv'', hsub'', hmem''⟩ :=
            ihws (fun x hx => hws x (List.mem_cons_of_mem _ hx)) _ hInv'
          refine ⟨hInv'', fun x hx => hsub'' (hpost.sub hx), ?_⟩
          intro x hx
          rcases List.mem_cons.mp hx with rfl | hx
          · exact hsub'' hpost.root_mem
          · exact hmem'' x hx
    -- initial state after marking the root satisfies the invariant
    have hInv0 : Inv (insertUniq st.1 v, add st.2 v) := by
      refine ⟨⟨[], by rw [hmark], by simp, ?_⟩, ?_, ?_⟩
      · intro u hu
        rcases List.mem_cons.mp hu with rfl | hu
        · exact hv_new
        · cases hu
      · intro u hu
        rw [hmark] at hu
        rcases List.mem_append.mp hu with hu | hu
        · exact Or.inl hu
        · rcases List.mem_singleton.mp hu with rfl
          exact Or.inr (Reach.refl adj u)
      · intro u hu hu_old hu_ne w hw
        rw [hmark] at hu
        rcases List.mem_append.mp hu with hu | hu
        · exact absurd hu hu_old
        · exact absurd (List.mem_singleton.mp hu) hu_ne
    obtain ⟨⟨δ, hδ1, hδ2, hδ3⟩, hreach, hclosed⟩ :=
      (hfold (adj v) (fun _ h => h) _ hInv0).1
    obtain ⟨_, hsub1, hnbrs⟩ := hfold (adj v) (fun _ h => h) _ hInv0
    have hres : dfsGen adj add (fuel+1) v st =
        (adj v).foldl f (insertUniq st.1 v, add st.2 v) := rfl
    rw [hres]
    constructor
    · -- sub
      intro x hx
      apply hsub1
      rw [hmark]; exact List.mem_append_left _ hx
    · -- root_mem
      rw [hδ1]; exact List.mem_append_right _ (List.mem_cons_self _ _)
    · -- reach
      exact hreach
    · -- closed_new: the root is fully expanded by the fold itself
      intro u hu hu_old w hw
      by_cases huv : u = v
      · subst huv; exact hnbrs w hw
      · exact hclosed u hu hu_old huv w hw
    · exact ⟨δ, hδ1, hδ2, hδ3⟩

/-- With a previously closed visited set, a DFS call yields a fully
closed visited set. -/
theorem dfsPost_closed {σ : Type} {adj : String → List String} {add : σ → String → σ}
    {v : String} {st r : List String × σ} (post : DfsPost adj add v st r)
    (hC : Closed adj st.1) : Closed adj r.1 := by
  intro u hu w hw
  by_cases hus : u ∈ st.1
  · exact post.sub (hC u hus w hw)
  · exact post.closed_new u hu hus w hw

/-- Completeness: with a previously closed visited set, everything
reachable from the root is visited after the call. -/
theorem dfsPost_complete {σ : Type} {adj : String → List String} {add : σ → String → σ}
    {v : String} {st r : List String × σ} (post : DfsPost adj add v st r)
    (hC : Closed adj st.1) {u : String} (h : Reach adj v u) : u ∈ r.1 :=
  reach_mem_of_closed (dfsPost_closed post hC) post.root_mem h

theorem foldl_snoc_eq_append (l : List String) (acc : List String) :
    l.foldl (fun c u => c ++ [u]) acc = acc ++ l := by
  induction l generalizing acc with
  | nil => simp
  | cons x xs ih => rw [List.foldl_cons, ih]; simp

/-! ## Component enumeration

```
nodes.forEach(node => {
  if (!visited.has(node.id)) {
    const component = new Set<string>();
    dfs(node.id, component);
    components.push(component);
  }
});
```
-/

/-- One step of the outer component loop. -/
def componentsStep (adj : String → List String) (fuel : Nat) :
    List String × List (List String) → String → List String × List (List String) :=
  fun st r =>
    if r ∈ st.1 then st
    else
      let res := dfsGen adj (fun c u => c ++ [u]) fuel r (st.1, ([] : List String))
      (res.1, st.2 ++ [res.2])

/-- Connected components discovered from `roots`, in first-seen order. -/
def componentsOf (adj : String → List String) (fuel : Nat) (roots : List String) :
    List (List String) :=
  (roots.foldl (componentsStep adj fuel) ([], [])).2

theorem unvisited_le_length (univ V : List String) : unvisited univ V ≤ univ.length :=
  List.countP_le_length _

theorem componentsLoop_inv (adj : String → List String) (univ : List String) (fuel : Nat)
    (hadj : ∀ x, ∀ w ∈ adj x, w ∈ univ) (hfuel : univ.length < fuel) :
    ∀ (roots : List String) (st : List String × List (List String)),
      roots ⊆ univ →
      Closed adj st.1 →
      (∀ comp ∈ st.2, ∃ rt δ, comp = rt :: δ ∧ ∀ u ∈ comp, Reach adj rt u) →
      (∀ u ∈ st.1, ∃ comp ∈ st.2, u ∈ comp) →
      (∀ comp ∈ st.2, ∀ u ∈ comp, u ∈ st.1) →
      Closed adj (roots.foldl (componentsStep adj fuel) st).1 ∧
      st.1 ⊆ (roots.foldl (componentsStep adj fuel) st).1 ∧
      (∃ suffix, (roots.foldl (componentsStep adj fuel) st).2 = st.2 ++ suffix) ∧
      (∀ comp ∈ (roots.foldl (componentsStep adj fuel) st).2,
        ∃ rt δ, comp = rt :: δ ∧ ∀ u ∈ comp, Reach adj rt u) ∧
      (∀ u ∈ (roots.foldl (componentsStep adj fuel) st).1,
        ∃ comp ∈ (roots.foldl (componentsStep adj fuel) st).2, u ∈ comp) ∧
      (∀ r ∈ roots, r ∈ (roots.foldl (componentsStep adj fuel) st).1) ∧
      (∀ u ∈ (roots.foldl (componentsStep adj fuel) st).1,
        u ∈ st.1 ∨ ∃ r ∈ roots, Reach adj r u) ∧
      (∀ comp ∈ (roots.foldl (componentsStep adj fuel) st).2, ∀ u ∈ comp,
        u ∈ (roots.foldl (componentsStep adj fuel) st).1) := by
  intro roots
  induction roots with
  | nil =>
    intro st _ hC hcomps hcover hinside
    exact ⟨hC, fun _ h => h, ⟨[], by simp⟩, hcomps, hcover,
      (by intro r hr; cases hr), fun u hu => Or.inl hu, hinside⟩
  | cons r roots ih =>
    intro st hroots hC hcomps hcover hinside
    rw [List.foldl_cons]
    by_cases hr : r ∈ st.1
    · have hstep : componentsStep adj fuel st r = st := by
        unfold componentsStep; rw [if_pos hr]
      rw [hstep]
      obtain ⟨c1, c2, c3, c4, c5, c6, c7, c8⟩ :=
        ih st (fun x hx => hroots (List.mem_cons_of_mem _ hx)) hC hcomps hcover hinside
      refine ⟨c1, c2, c3, c4, c5, ?_, ?_, c8⟩
      · intro x hx
        rcases List.mem_cons.mp hx with rfl | hx
        · exact c2 hr
        · exact c6 x hx
      · intro u hu
        rcases c7 u hu with h | ⟨r', hr', hreach⟩
        · exact Or.inl h
        · exact Or.inr ⟨r', List.mem_cons_of_mem _ hr', hreach⟩
    · have hstep : componentsStep adj fuel st r =
          ((dfsGen adj (fun c u => c ++ [u]) fuel r (st.1, ([] : List String))).1,
           st.2 ++ [(dfsGen adj (fun c u => c ++ [u]) fuel r (st.1, ([] : List String))).2]) := by
        unfold componentsStep; rw [if_neg hr]
      have hpost := dfsGen_post adj univ (fun c u => c ++ [u]) hadj fuel r
        (st.1, ([] : List String)) (hroots (List.mem_cons_self _ _)) hr
        (lt_of_le_of_lt (unvisited_le_length univ st.1) hfuel)
      obtain ⟨δ, hδ1, hδ2, hδ3⟩ := hpost.trace
      rw [foldl_snoc_eq_append] at hδ2
      simp only [List.nil_append] at hδ2
      set res := dfsGen adj (fun c u => c ++ [u]) fuel r (st.1, ([] : List String))
        with hres
      have hC' : Closed adj res.1 := dfsPost_closed hpost hC
      have hcomps' : ∀ comp ∈ st.2 ++ [res.2], ∃ rt δ', comp = rt :: δ' ∧
          ∀ u ∈ comp, Reach adj rt u := by
        intro comp hcomp
        rcases List.mem_append.mp hcomp with hcomp | hcomp
        · exact hcomps comp hcomp
        · rcases List.mem_singleton.mp hcomp with rfl
          refine ⟨r, δ, hδ2, ?_⟩
          intro u hu
          rw [hδ2] at hu
          have humem : u ∈ res.1 := by
            rw [hδ1]; exact List.mem_append_right _ hu
          rcases hpost.reach u humem with hold | hreach
          · exact absurd hold (hδ3 u hu)
          · exact hreach
      have hcover' : ∀ u ∈ res.1, ∃ comp ∈ st.2 ++ [res.2], u ∈ comp := by
        intro u hu
        rw [hδ1] at hu
        rcases List.mem_append.mp hu with hu | hu
        · obtain ⟨comp, hc, hcu⟩ := hcover u hu
          exact ⟨comp, List.mem_append_left _ hc, hcu⟩
        · refine ⟨res.2, List.mem_append_right _ (List.mem_singleton.mpr rfl), ?_⟩
          rw [hδ2]; exact hu
      have hinside' : ∀ comp ∈ st.2 ++ [res.2], ∀ u ∈ comp, u ∈ res.1 := by
        intro comp hcomp u hu
        rcases List.mem_append.mp hcomp with hcomp | hcomp
        · exact hpost.sub (hinside comp hcomp u hu)
        · rcases List.mem_singleton.mp hcomp with rfl
          rw [hδ1]
          exact List.mem_append_right _ (by rw [← hδ2]; exact hu)
      rw [hstep]
      obtain ⟨c1, c2, c3, c4, c5, c6, c7, c8⟩ :=
        ih (res.1, st.2 ++ [res.2]) (fun x hx => hroots (List.mem_cons_of_mem _ hx))
          hC' hcomps' hcover' hinside'
      refine ⟨c1, fun x hx => c2 (hpost.sub hx), ?_, c4, c5, ?_, ?_, c8⟩
      · obtain ⟨suffix, hsuffix⟩ := c3
        exact ⟨[res.2] ++ suffix, by rw [hsuffix]; simp⟩
      · intro x hx
        rcases List.mem_cons.mp hx with rfl | hx
        · exact c2 hpost.root_mem
        · exact c6 x hx
      · intro u hu
        rcases c7 u hu with h | ⟨r', hr', hreach⟩
        · rcases hpost.reach u h with h' | hreach
          · exact Or.inl h'
          · exact Or.inr ⟨r, List.mem_cons_self _ _, hreach⟩
        · exact Or.inr ⟨r', List.mem_cons_of_mem _ hr', hreach⟩

/-- Skipping: the outer loop leaves the state unchanged when all remaining
roots are already visited. -/
theorem componentsLoop_skip (adj : String → List String) (fuel : Nat) :
    ∀ (roots : List String) (st : List String × List (List String)),
      (∀ r ∈ roots, r ∈ st.1) → roots.foldl (componentsStep adj fuel) st = st := by
  intro roots
  induction roots with
  | nil => intro st _; rfl
  | cons r roots ih =>
    intro st hall
    rw [List.foldl_cons]
    have hstep : componentsStep adj fuel st r = st := by
      unfold componentsStep; rw [if_pos (hall r (List.mem_cons_self _ _))]
    rw [hstep]
    exact ih st (fun x hx => hall x (List.mem_cons_of_mem _ hx))

/-- If every root is reachable from the first root, the loop discovers a
single component. -/
theorem componentsOf_single (adj : String → List String) (univ : List String) (fuel : Nat)
    (hadj : ∀ x, ∀ w ∈ adj x, w ∈ univ) (hfuel : univ.length < fuel)
    (r₀ : String) (roots : List String) (hr₀ : r₀ ∈ univ)
    (hconn : ∀ r ∈ roots, Reach adj r₀ r) :
    (componentsOf adj fuel (r₀ :: roots)).length = 1 := by
  unfold componentsOf
  rw [List.foldl_cons]
  have hstep : componentsStep adj fuel ([], []) r₀ =
      ((dfsGen adj (fun c u => c ++ [u]) fuel r₀ (([] : List String), ([] : List String))).1,
       [(dfsGen adj (fun c u => c ++ [u]) fuel r₀ (([] : List String), ([] : List String))).2]) := by
    unfold componentsStep
    rw [if_neg (List.not_mem_nil r₀)]
    rfl
  rw [hstep]
  have hpost := dfsGen_post adj univ (fun c u => c ++ [u]) hadj fuel r₀
    (([] : List String), ([] : List String)) hr₀ (List.not_mem_nil r₀)
    (lt_of_le_of_lt (unvisited_le_length univ []) hfuel)
  have hCnil : Closed adj ([] : List String) := by intro u hu; cases hu
  have hall : ∀ r ∈ roots,
      r ∈ (dfsGen adj (fun c u => c ++ [u]) fuel r₀ (([] : List String), ([] : List String))).1 :=
    fun r hr => dfsPost_complete hpost hCnil (hconn r hr)
  rw [componentsLoop_skip adj fuel roots _ hall]
  rfl

/-! # `TP` — `src/utils/textProcessor.ts`

`type Entity = Node` and `type Relationship = Link` with `Node`/`Link`
from `src/components/Graph/types.ts`. The visual/positional fields
(`size`, `pageRank`, `x`, `y`, `fx`, `fy`) are never read by the
functions embedded here and are omitted. `isInferred` is not declared on
this `Link` type (only on the ForceGraph `Link` type, which reads it as
an optional property); we carry it as an optional property, `none` on
every object literal that does not mention it. -/

namespace TP

structure Entity where
  id : String
  group : Int
  type : Option String := none
  context : Option (List String) := none
deriving DecidableEq

instance : Inhabited Entity := ⟨{ id := "", group := 0 }⟩

structure Relationship where
  source : String
  target : String
  value : ℚ
  type : Option String := none
  context : Option String := none
  isInferred : Option Bool := none
deriving DecidableEq

structure GraphData where
  nodes : List Entity
  links : List Relationship
deriving DecidableEq

/-- A `\w` word character, as in the regex `/\W+/`. -/
def isWordChar (c : Char) : Bool := c.isAlphanum || c = '_'

/-- `String.split(/\W+/)` on a list of characters: pieces between maximal
runs of non-word characters (with empty pieces at the boundaries, as in
JavaScript). -/
def splitWAux : List Char → List Char → List (List Char)
  | [], cur => [cur]
  | c :: cs, cur =>
    if isWordChar c then splitWAux cs (cur ++ [c])
    else cur :: splitWAux (cs.dropWhile (fun c2 => !isWordChar c2)) []
termination_by cs _ => cs.length
decreasing_by
  · simp only [List.length_cons]; omega
  · have := (@List.dropWhile_sublist _ cs (fun c2 => !isWordChar c2)).length_le
    simp only [List.length_cons]; omega

/-- `s.split(/\W+/)`. -/
def wordsOf (s : String) : List String :=
  (splitWAux s.toList []).map (fun cs => String.mk cs)

/-- `calculateNodeSimilarity`: +0.5 for an equal `group`, plus the
token-overlap ratio of the joined, lower-cased `context` arrays (when both
are present), plus +0.3 for an equal `type`. -/
def calculateNodeSimilarity (node1 node2 : Entity) : ℚ :=
  let groupBonus : ℚ := if node1.group = node2.group then 1/2 else 0
  let contextBonus : ℚ :=
    match node1.context, node2.context with
    | some c1, some c2 =>
      let context1 := (String.intercalate " " c1).toLower
      let context2 := (String.intercalate " " c2).toLower
      let words1 := (wordsOf context1).dedup
      let words2 := (wordsOf context2).dedup
      let sharedWords := words1.filter (fun w => decide (w ∈ words2))
      (sharedWords.length : ℚ) / (max words1.length words2.length : ℚ)
    | _, _ => 0
  let typeBonus : ℚ := if node1.type = node2.type then 3/10 else 0
  groupBonus + contextBonus + typeBonus

theorem calculateNodeSimilarity_nonneg (node1 node2 : Entity) :
    0 ≤ calculateNodeSimilarity node1 node2 := by
  unfold calculateNodeSimilarity
  have h1 : (0:ℚ) ≤ if node1.group = node2.group then (1:ℚ)/2 else 0 := by positivity
  have h3 : (0:ℚ) ≤ if node1.type = node2.type then (3:ℚ)/10 else 0 := by positivity
  have h2 : (0:ℚ) ≤ match node1.context, node2.context with
    | some c1, some c2 =>
      let context1 := (String.intercalate " " c1).toLower
      let context2 := (String.intercalate " " c2).toLower
      let words1 := (wordsOf context1).dedup
      let words2 := (wordsOf context2).dedup
      let sharedWords := words1.filter (fun w => decide (w ∈ words2))
      ((sharedWords.length : ℚ) / (max words1.length words2.length : ℚ))
    | _, _ => (0:ℚ) := by
    rcases node1.context with _ | c1 <;> rcases node2.context with _ | c2
    · exact le_refl 0
    · exact le_refl 0
    · exact le_refl 0
    · simp only
      positivity
  exact add_nonneg (add_nonneg h1 h2) h3

def nodeIds (nodes : List Entity) : List String := nodes.map (·.id)

/-- Referential integrity: every link endpoint is an existing node id
(§3 data-model invariant; §7 names its violation the only contract
violation). -/
def RefInt (nodes : List Entity) (links : List Relationship) : Prop :=
  ∀ l ∈ links, l.source ∈ nodeIds nodes ∧ l.target ∈ nodeIds nodes

instance (nodes : List Entity) (links : List Relationship) :
    Decidable (RefInt nodes links) := by
  unfold RefInt; infer_instance

/-- The undirected adjacency map of `connectIsolatedNodes` (a missing key
behaves as an empty neighbour set, matching `adjacencyMap.get(x)?.…`). -/
def tpAdj (nodes : List Entity) (links : List Relationship) : String → List String :=
  fun x =>
    ((buildAdjMap (nodeIds nodes) (links.map (fun l => (l.source, l.target)))) x).getD []

/-- All ids that can ever be visited: node ids and link endpoints. -/
def tpUniv (nodes : List Entity) (links : List Relationship) : List String :=
  nodeIds nodes ++ links.map (·.source) ++ links.map (·.target)

/-- Fuel sufficient for the DFS over this graph. -/
def tpFuel (nodes : List Entity) (links : List Relationship) : Nat :=
  (tpUniv nodes links).length + 1

theorem tpAdj_mem (nodes : List Entity) (links : List Relationship) (a b : String) :
    b ∈ tpAdj nodes links a ↔
      a ∈ nodeIds nodes ∧
        ∃ l ∈ links, (l.source = a ∧ l.target = b) ∨ (l.target = a ∧ l.source = b) := by
  unfold tpAdj
  rw [mem_buildAdjMap]
  constructor
  · rintro ⟨ha, e, he, hcase⟩
    obtain ⟨l, hl, rfl⟩ := List.mem_map.mp he
    exact ⟨ha, l, hl, hcase⟩
  · rintro ⟨ha, l, hl, hcase⟩
    exact ⟨ha, (l.source, l.target), List.mem_map.mpr ⟨l, hl, rfl⟩, hcase⟩

theorem tpAdj_sub_univ (nodes : List Entity) (links : List Relationship) :
    ∀ x, ∀ w ∈ tpAdj nodes links x, w ∈ tpUniv nodes links := by
  intro x w hw
  obtain ⟨_, l, hl, hcase⟩ := (tpAdj_mem nodes links x w).mp hw
  unfold tpUniv
  rcases hcase with ⟨_, rfl⟩ | ⟨_, rfl⟩
  · exact List.mem_append_right _ (List.mem_map.mpr ⟨l, hl, rfl⟩)
  · exact List.mem_append.mpr (Or.inl (List.mem_append_right _ (List.mem_map.mpr ⟨l, hl, rfl⟩)))

theorem tpAdj_sub_ids (nodes : List Entity) (links : List Relationship)
    (href : RefInt nodes links) :
    ∀ x, ∀ w ∈ tpAdj nodes links x, w ∈ nodeIds nodes := by
  intro x w hw
  obtain ⟨_, l, hl, hcase⟩ := (tpAdj_mem nodes links x w).mp hw
  rcases hcase with ⟨_, rfl⟩ | ⟨_, rfl⟩
  · exact (href l hl).2
  · exact (href l hl).1

theorem tpAdj_symm (nodes : List Entity) (links : List Relationship)
    (href : RefInt nodes links) :
    ∀ a b, adjRel (tpAdj nodes links) a b → adjRel (tpAdj nodes links) b a := by
  intro a b hab
  obtain ⟨_, l, hl, hcase⟩ := (tpAdj_mem nodes links a b).mp hab
  unfold adjRel
  rw [tpAdj_mem]
  rcases hcase with ⟨h1, h2⟩ | ⟨h1, h2⟩
  · exact ⟨by rw [← h2]; exact (href l hl).2, l, hl, Or.inr ⟨h2, h1⟩⟩
  · exact ⟨by rw [← h2]; exact (href l hl).1, l, hl, Or.inl ⟨h2, h1⟩⟩

/-- The inferred link created for a non-main component: find the
best-scoring main-component node for the component's first member and
connect them. -/
def mkInferredLink (nodes : List Entity) (mainComponent : List String)
    (component : List String) : Relationship :=
  let isolatedNodeId := component.headD ""
  let isolatedNode := (nodes.find? (fun n => n.id == isolatedNodeId)).getD default
  let bestMatch := mainComponent.foldl
    (fun (best : String × ℚ) mainNodeId =>
      let mainNode := (nodes.find? (fun n => n.id == mainNodeId)).getD default
      let similarity := calculateNodeSimilarity isolatedNode mainNode
      if best.2 < similarity then (mainNodeId, similarity) else best)
    ("", -1)
  { source := isolatedNodeId, target := bestMatch.1, value := 1,
    type := some "inferred_relation",
    context := some "Inferred relationship based on domain similarity" }

/-- The connected components of the undirected adjacency, in first-seen
(DFS) order. -/
def tpComponents (nodes : List Entity) (links : List Relationship) : List (List String) :=
  componentsOf (tpAdj nodes links) (tpFuel nodes links) (nodeIds nodes)

/-- `components.sort((a, b) => b.size - a.size)`: components by size,
largest first. -/
def sortedComponents (nodes : List Entity) (links : List Relationship) :
    List (List String) :=
  (tpComponents nodes links).insertionSort (fun a b => b.length ≤ a.length)

/-- `connectIsolatedNodes`: find the undirected connected components; if
more than one, sort them by size (descending), keep the largest as the
main component and connect every other component's first member to its
best-scoring main-component node. -/
def connectIsolatedNodes (nodes : List Entity) (links : List Relationship) : GraphData :=
  if (tpComponents nodes links).length ≤ 1 then ⟨nodes, links⟩
  else
    ⟨nodes, links ++ ((sortedComponents nodes links).drop 1).map
      (mkInferredLink nodes ((sortedComponents nodes links).headD []))⟩

theorem bestFold_eq_or_mem (sim : String → ℚ) :
    ∀ (l : List String) (best : String × ℚ),
      l.foldl (fun best x => if best.2 < sim x then (x, sim x) else best) best = best ∨
      (l.foldl (fun best x => if best.2 < sim x then (x, sim x) else best) best).1 ∈ l := by
  intro l
  induction l with
  | nil => intro _; exact Or.inl rfl
  | cons x xs ih =>
    intro best
    rw [List.foldl_cons]
    by_cases h : best.2 < sim x
    · rw [if_pos h]
      rcases ih (x, sim x) with heq | hmem
      · rw [heq]; exact Or.inr (List.mem_cons_self _ _)
      · exact Or.inr (List.mem_cons_of_mem _ hmem)
    · rw [if_neg h]
      rcases ih best with heq | hmem
      · exact Or.inl heq
      · exact Or.inr (List.mem_cons_of_mem _ hmem)

/-- The best-match search always lands in the searched list: every
similarity is `≥ 0`, which beats the `-1` sentinel. -/
theorem bestFold_mem (sim : String → ℚ) (l : List String) (hne : l ≠ [])
    (hnn : ∀ x ∈ l, 0 ≤ sim x) :
    (l.foldl (fun best x => if best.2 < sim x then (x, sim x) else best) ("", -1)).1 ∈ l := by
  cases l with
  | nil => exact absurd rfl hne
  | cons x xs =>
    rw [List.foldl_cons]
    have h : (("", (-1 : ℚ))).2 < sim x :=
      lt_of_lt_of_le (by norm_num) (hnn x (List.mem_cons_self _ _))
    rw [if_pos h]
    rcases bestFold_eq_or_mem sim xs (x, sim x) with heq | hmem
    · rw [heq]; exact List.mem_cons_self _ _
    · exact List.mem_cons_of_mem _ hmem

theorem mkInferredLink_fields (nodes : List Entity) (main comp : List String) :
    (mkInferredLink nodes main comp).source = comp.headD "" ∧
    (mkInferredLink nodes main comp).value = 1 ∧
    (mkInferredLink nodes main comp).type = some "inferred_relation" ∧
    (mkInferredLink nodes main comp).context =
      some "Inferred relationship based on domain similarity" ∧
    (mkInferredLink nodes main comp).isInferred = none :=
  ⟨rfl, rfl, rfl, rfl, rfl⟩

theorem mkInferredLink_target_mem (nodes : List Entity) (main comp : List String)
    (hne : main ≠ []) : (mkInferredLink nodes main comp).target ∈ main := by
  show (main.foldl _ ("", -1)).1 ∈ main
  exact bestFold_mem _ main hne (fun _ _ => calculateNodeSimilarity_nonneg _ _)

theorem tpComponents_facts (nodes : List Entity) (links : List Relationship) :
    (∀ comp ∈ tpComponents nodes links,
      ∃ rt δ, comp = rt :: δ ∧ ∀ u ∈ comp, Reach (tpAdj nodes links) rt u) ∧
    (∀ r ∈ nodeIds nodes, ∃ comp ∈ tpComponents nodes links, r ∈ comp) ∧
    (∀ comp ∈ tpComponents nodes links, ∀ u ∈ comp,
      ∃ r ∈ nodeIds nodes, Reach (tpAdj nodes links) r u) := by
  have hfuel : (tpUniv nodes links).length < tpFuel nodes links := by
    unfold tpFuel; omega
  have hroots : nodeIds nodes ⊆ tpUniv nodes links := by
    intro x hx
    unfold tpUniv
    exact List.mem_append_left _ (List.mem_append_left _ hx)
  obtain ⟨c1, c2, c3, c4, c5, c6, c7, c8⟩ :=
    componentsLoop_inv (tpAdj nodes links) (tpUniv nodes links) (tpFuel nodes links)
      (tpAdj_sub_univ nodes links) hfuel (nodeIds nodes) ([], [])
      hroots (by intro u hu; cases hu) (by intro comp hcomp; cases hcomp)
      (by intro u hu; cases hu) (by intro comp hcomp; cases hcomp)
  refine ⟨c4, ?_, ?_⟩
  · intro r hr
    exact c5 r (c6 r hr)
  · intro comp hcomp u hu
    rcases c7 u (c8 comp hcomp u hu) with h | h
    · cases h
    · exact h

theorem tpComponents_sub_ids (nodes : List Entity) (links : List Relationship)
    (href : RefInt nodes links) :
    ∀ comp ∈ tpComponents nodes links, ∀ u ∈ comp, u ∈ nodeIds nodes := by
  intro comp hcomp u hu
  obtain ⟨_, _, hfacts⟩ := tpComponents_facts nodes links
  obtain ⟨r, hr, hreach⟩ := hfacts comp hcomp u hu
  exact reach_mem_of_closed
    (fun x _ w hw => tpAdj_sub_ids nodes links href x w hw) hr hreach

theorem sortedComponents_mem (nodes : List Entity) (links : List Relationship)
    {comp : List String} :
    comp ∈ sortedComponents nodes links ↔ comp ∈ tpComponents nodes links :=
  (List.perm_insertionSort _ _).mem_iff

theorem sortedComponents_length (nodes : List Entity) (links : List Relationship) :
    (sortedComponents nodes links).length = (tpComponents nodes links).length :=
  (List.perm_insertionSort _ _).length_eq

theorem connectIsolatedNodes_nodes_eq (nodes : List Entity) (links : List Relationship) :
    (connectIsolatedNodes nodes links).nodes = nodes := by
  unfold connectIsolatedNodes
  split <;> rfl

theorem connectIsolatedNodes_of_le (nodes : List Entity) (links : List Relationship)
    (h : (tpComponents nodes links).length ≤ 1) :
    connectIsolatedNodes nodes links = ⟨nodes, links⟩ := by
  unfold connectIsolatedNodes
  rw [if_pos h]

theorem connectIsolatedNodes_of_gt (nodes : List Entity) (links : List Relationship)
    (h : ¬ (tpComponents nodes links).length ≤ 1) :
    connectIsolatedNodes nodes links =
      ⟨nodes, links ++ ((sortedComponents nodes links).drop 1).map
        (mkInferredLink nodes ((sortedComponents nodes links).headD []))⟩ := by
  unfold connectIsolatedNodes
  rw [if_neg h]

theorem sortedComponents_cons (nodes : List Entity) (links : List Relationship)
    (h : sortedComponents nodes links ≠ []) :
    sortedComponents nodes links =
      (sortedComponents nodes links).headD [] :: (sortedComponents nodes links).drop 1 := by
  cases hs : sortedComponents nodes links with
  | nil => exact absurd hs h
  | cons a t => rfl

/-- When there are at least two components, the main (first sorted)
component is one of the components and is non-empty. -/
theorem mainComponent_mem (nodes : List Entity) (links : List Relationship)
    (h : ¬ (tpComponents nodes links).length ≤ 1) :
    (sortedComponents nodes links).headD [] ∈ tpComponents nodes links ∧
    (sortedComponents nodes links).headD [] ≠ [] := by
  have hne : sortedComponents nodes links ≠ [] := by
    intro hcon
    have := sortedComponents_length nodes links
    rw [hcon] at this
    simp only [List.length_nil] at this
    omega
  have hmem : (sortedComponents nodes links).headD [] ∈ sortedComponents nodes links := by
    rw [sortedComponents_cons nodes links hne]
    exact List.mem_cons_self _ _
  have hmem' := (sortedComponents_mem nodes links).mp hmem
  obtain ⟨hfacts, _, _⟩ := tpComponents_facts nodes links
  obtain ⟨rt, δ, hshape, _⟩ := hfacts _ hmem'
  exact ⟨hmem', by rw [hshape]; exact List.cons_ne_nil _ _⟩

/-- Structure of every synthesized link: its source is the first member
of its (non-main) component and its target a member of the main
component; under referential integrity both are node ids. -/
theorem mkInferredLink_endpoints (nodes : List Entity) (links : List Relationship)
    (href : RefInt nodes links) (h : ¬ (tpComponents nodes links).length ≤ 1)
    {comp : List String} (hcomp : comp ∈ (sortedComponents nodes links).drop 1) :
    (mkInferredLink nodes ((sortedComponents nodes links).headD []) comp).source
      = comp.headD "" ∧
    (mkInferredLink nodes ((sortedComponents nodes links).headD []) comp).source ∈ comp ∧
    (mkInferredLink nodes ((sortedComponents nodes links).headD []) comp).source
      ∈ nodeIds nodes ∧
    (mkInferredLink nodes ((sortedComponents nodes links).headD []) comp).target
      ∈ (sortedComponents nodes links).headD [] ∧
    (mkInferredLink nodes ((sortedComponents nodes links).headD []) comp).target
      ∈ nodeIds nodes := by
  obtain ⟨hmain_mem, hmain_ne⟩ := mainComponent_mem nodes links h
  have hcomp_mem : comp ∈ tpComponents nodes links :=
    (sortedComponents_mem nodes links).mp (List.mem_of_mem_drop hcomp)
  obtain ⟨hfacts, _, _⟩ := tpComponents_facts nodes links
  obtain ⟨rt, δ, hshape, _⟩ := hfacts _ hcomp_mem
  have hsrc : (mkInferredLink nodes ((sortedComponents nodes links).headD []) comp).source
      = comp.headD "" := (mkInferredLink_fields _ _ _).1
  have hsrc_mem : comp.headD "" ∈ comp := by
    rw [hshape]; exact List.mem_cons_self _ _
  have htgt := mkInferredLink_target_mem nodes
    ((sortedComponents nodes links).headD []) comp hmain_ne
  refine ⟨hsrc, by rw [hsrc]; exact hsrc_mem, ?_, htgt, ?_⟩
  · rw [hsrc]
    exact tpComponents_sub_ids nodes links href comp hcomp_mem _ hsrc_mem
  · exact tpComponents_sub_ids nodes links href _ hmain_mem _ htgt

theorem refint_out (nodes : List Entity) (links : List Relationship)
    (href : RefInt nodes links) :
    RefInt nodes (connectIsolatedNodes nodes links).links := by
  by_cases h : (tpComponents nodes links).length ≤ 1
  · rw [connectIsolatedNodes_of_le nodes links h]
    exact href
  · rw [connectIsolatedNodes_of_gt nodes links h]
    intro l hl
    rcases List.mem_append.mp hl with hl | hl
    · exact href l hl
    · obtain ⟨comp, hcomp, rfl⟩ := List.mem_map.mp hl
      obtain ⟨_, _, h3, _, h5⟩ := mkInferredLink_endpoints nodes links href h hcomp
      exact ⟨h3, h5⟩

/-- After repair all node ids are mutually reachable in the undirected
adjacency of the output links. -/
theorem out_reach (nodes : List Entity) (links : List Relationship)
    (href : RefInt nodes links) :
    ∀ u v, u ∈ nodeIds nodes → v ∈ nodeIds nodes →
      Reach (tpAdj nodes (connectIsolatedNodes nodes links).links) u v := by
  have hrefOut := refint_out nodes links href
  have hsymOut := tpAdj_symm nodes (connectIsolatedNodes nodes links).links hrefOut
  obtain ⟨hfacts, hcover, _⟩ := tpComponents_facts nodes links
  by_cases h : (tpComponents nodes links).length ≤ 1
  · -- already connected (or empty): output links = input links
    rw [connectIsolatedNodes_of_le nodes links h]
    intro u v hu hv
    obtain ⟨cu, hcu, hu'⟩ := hcover u hu
    obtain ⟨cv, hcv, hv'⟩ := hcover v hv
    have hlen1 : (tpComponents nodes links).length = 1 := by
      have := List.length_pos.mpr (List.ne_nil_of_mem hcu)
      omega
    obtain ⟨c, hc⟩ := List.length_eq_one.mp hlen1
    rw [hc] at hcu hcv
    rw [List.mem_singleton.mp hcu] at hu'
    rw [List.mem_singleton.mp hcv] at hv'
    obtain ⟨rt, δ, _, hreach⟩ := hfacts c (by rw [hc]; exact List.mem_singleton.mpr rfl)
    have hsym := tpAdj_symm nodes links href
    exact Relation.ReflTransGen.trans
      (reach_symm hsym (hreach u hu')) (hreach v hv')
  · -- at least two components: every id reaches the main root
    set out := connectIsolatedNodes nodes links with hout
    have hlinks : out.links = links ++ ((sortedComponents nodes links).drop 1).map
        (mkInferredLink nodes ((sortedComponents nodes links).headD [])) := by
      rw [hout, connectIsolatedNodes_of_gt nodes links h]
    have hmono : ∀ a b, adjRel (tpAdj nodes links) a b →
        adjRel (tpAdj nodes out.links) a b := by
      intro a b hab
      obtain ⟨ha, l, hl, hcase⟩ := (tpAdj_mem nodes links a b).mp hab
      exact (tpAdj_mem nodes out.links a b).mpr
        ⟨ha, l, by rw [hlinks]; exact List.mem_append_left _ hl, hcase⟩
    have hreach_mono : ∀ a b, Reach (tpAdj nodes links) a b →
        Reach (tpAdj nodes out.links) a b := by
      intro a b hab
      exact Relation.ReflTransGen.mono hmono hab
    obtain ⟨hmain_mem, hmain_ne⟩ := mainComponent_mem nodes links h
    obtain ⟨rtm, δm, hmain_shape, hmain_reach⟩ := hfacts _ hmain_mem
    have hne : sortedComponents nodes links ≠ [] := by
      intro hcon
      have := sortedComponents_length nodes links
      rw [hcon] at this
      simp only [List.length_nil] at this
      omega
    -- every node id is reachable from the main component's root
    have hkey : ∀ w ∈ nodeIds nodes, Reach (tpAdj nodes out.links) rtm w := by
      intro w hw
      obtain ⟨comp, hcomp, hw'⟩ := hcover w hw
      have hcomp_sorted : comp ∈ sortedComponents nodes links :=
        (sortedComponents_mem nodes links).mpr hcomp
      rw [sortedComponents_cons nodes links hne] at hcomp_sorted
      rcases List.mem_cons.mp hcomp_sorted with rfl | hcomp_drop
      · exact hreach_mono _ _ (hmain_reach w hw')
      · obtain ⟨rt, δ, hshape, hreach⟩ := hfacts comp
          ((sortedComponents_mem nodes links).mp (List.mem_of_mem_drop hcomp_drop))
        obtain ⟨hsrc, hsrc_comp, hsrc_ids, htgt_main, _⟩ :=
          mkInferredLink_endpoints nodes links href h hcomp_drop
        -- the synthesized link yields an edge (source, target) in the output
        have hedge : adjRel (tpAdj nodes out.links)
            (mkInferredLink nodes ((sortedComponents nodes links).headD []) comp).source
            (mkInferredLink nodes ((sortedComponents nodes links).headD []) comp).target := by
          refine (tpAdj_mem nodes out.links _ _).mpr ⟨hsrc_ids, ?_⟩
          refine ⟨mkInferredLink nodes ((sortedComponents nodes links).headD []) comp, ?_,
            Or.inl ⟨rfl, rfl⟩⟩
          rw [hlinks]
          exact List.mem_append_right _ (List.mem_map.mpr ⟨comp, hcomp_drop, rfl⟩)
        -- rtm ~ target ~ source ~ w
        have h1 : Reach (tpAdj nodes out.links) rtm
            (mkInferredLink nodes ((sortedComponents nodes links).headD []) comp).target :=
          hreach_mono _ _ (hmain_reach _ htgt_main)
        have h2 : Reach (tpAdj nodes out.links)
            (mkInferredLink nodes ((sortedComponents nodes links).headD []) comp).target
            (mkInferredLink nodes ((sortedComponents nodes links).headD []) comp).source :=
          reach_symm hsymOut (Relation.ReflTransGen.single hedge)
        have h3 : Reach (tpAdj nodes out.links)
            (mkInferredLink nodes ((sortedComponents nodes links).headD []) comp).source w := by
          have hreach_src : Reach (tpAdj nodes links) rt
              (mkInferredLink nodes ((sortedComponents nodes links).headD []) comp).source :=
            hreach _ hsrc_comp
          have hreach_w : Reach (tpAdj nodes links) rt w := hreach w hw'
          exact Relation.ReflTransGen.trans
            (reach_symm hsymOut (hreach_mono _ _ hreach_src)) (hreach_mono _ _ hreach_w)
        exact Relation.ReflTransGen.trans h1 (Relation.ReflTransGen.trans h2 h3)
    intro u v hu hv
    exact Relation.ReflTransGen.trans (reach_symm hsymOut (hkey u hu)) (hkey v hv)

theorem graphData_eta (g : GraphData) (nodes : List Entity) (h : g.nodes = nodes) :
    (⟨nodes, g.links⟩ : GraphData) = g := by
  cases g
  cases h
  rfl

instance : IsTotal (List String) (fun a b => b.length ≤ a.length) :=
  ⟨fun a b => le_total b.length a.length⟩

instance : IsTrans (List String) (fun a b => b.length ≤ a.length) :=
  ⟨fun _ _ _ hab hbc => le_trans hbc hab⟩

/-- **C1.** For every graph whose links reference existing node ids, the
graph returned by `connectIsolatedNodes` induces an undirected graph with
exactly one connected component when the node list is non-empty (its own
component search finds exactly one component, and all node ids are
mutually reachable), and the operation is idempotent: applying
`connectIsolatedNodes` to its own output returns that output unchanged
(in particular it adds no further links). -/
theorem connectIsolatedNodes_connected_and_idempotent
    (nodes : List Entity) (links : List Relationship) (href : RefInt nodes links) :
    (nodes ≠ [] →
      (tpComponents nodes (connectIsolatedNodes nodes links).links).length = 1) ∧
    (∀ a b, a ∈ nodeIds nodes → b ∈ nodeIds nodes →
      Reach (tpAdj nodes (connectIsolatedNodes nodes links).links) a b) ∧
    connectIsolatedNodes nodes (connectIsolatedNodes nodes links).links =
      connectIsolatedNodes nodes links := by
  have hone : nodes ≠ [] →
      (tpComponents nodes (connectIsolatedNodes nodes links).links).length = 1 := by
    intro hne
    cases nodes with
    | nil => exact absurd rfl hne
    | cons n ns =>
      have hids : nodeIds (n :: ns) = n.id :: nodeIds ns := rfl
      unfold tpComponents
      rw [hids]
      apply componentsOf_single _
        (tpUniv (n :: ns) (connectIsolatedNodes (n :: ns) links).links) _
        (tpAdj_sub_univ _ _) (by unfold tpFuel; omega)
      · unfold tpUniv
        exact List.mem_append_left _ (List.mem_append_left _
          (by rw [hids]; exact List.mem_cons_self _ _))
      · intro r hr
        exact out_reach (n :: ns) links href n.id r
          (by rw [hids]; exact List.mem_cons_self _ _)
          (by rw [hids]; exact List.mem_cons_of_mem _ hr)
  refine ⟨hone, out_reach nodes links href, ?_⟩
  by_cases hnil : nodes = []
  · subst hnil
    have hcomps : tpComponents [] (connectIsolatedNodes [] links).links = [] := rfl
    rw [connectIsolatedNodes_of_le [] _ (by rw [hcomps]; decide)]
    exact graphData_eta _ _ (connectIsolatedNodes_nodes_eq [] links)
  · rw [connectIsolatedNodes_of_le nodes _ (by rw [hone hnil])]
    exact graphData_eta _ _ (connectIsolatedNodes_nodes_eq nodes links)

/-- Witness for C1: the spec scenario — nodes `[A,B,C,D]` with links
`A–B` and `C–D`; the repaired graph has exactly 3 links and exactly 1
connected component. -/
theorem connectIsolatedNodes_connected_and_idempotent_witness :
    RefInt
      [⟨"A", 1, none, none⟩, ⟨"B", 1, none, none⟩,
       ⟨"C", 1, none, none⟩, ⟨"D", 1, none, none⟩]
      [⟨"A", "B", 1, none, none, none⟩, ⟨"C", "D", 1, none, none, none⟩] ∧
    (connectIsolatedNodes
      [⟨"A", 1, none, none⟩, ⟨"B", 1, none, none⟩,
       ⟨"C", 1, none, none⟩, ⟨"D", 1, none, none⟩]
      [⟨"A", "B", 1, none, none, none⟩, ⟨"C", "D", 1, none, none, none⟩]).links.length
      = 3 ∧
    (tpComponents
      [⟨"A", 1, none, none⟩, ⟨"B", 1, none, none⟩,
       ⟨"C", 1, none, none⟩, ⟨"D", 1, none, none⟩]
      (connectIsolatedNodes
        [⟨"A", 1, none, none⟩, ⟨"B", 1, none, none⟩,
         ⟨"C", 1, none, none⟩, ⟨"D", 1, none, none⟩]
        [⟨"A", "B", 1, none, none, none⟩,
         ⟨"C", "D", 1, none, none, none⟩]).links).length = 1 :=
  ⟨by decide, by decide,
    (connectIsolatedNodes_connected_and_idempotent _ _ (by decide)).1 (by decide)⟩

/-- **C10.** Under referential integrity of the input, every link added by
`connectIsolatedNodes` runs from the first member of a non-largest
component to a member of the largest (main) component, both existing node
ids — so the output satisfies referential integrity as well; moreover the
main component is a largest one. -/
theorem connectIsolatedNodes_endpoints_valid
    (nodes : List Entity) (links : List Relationship) (href : RefInt nodes links) :
    RefInt nodes (connectIsolatedNodes nodes links).links ∧
    (∀ lnk ∈ (connectIsolatedNodes nodes links).links.drop links.length,
      ∃ comp ∈ (sortedComponents nodes links).drop 1,
        lnk = mkInferredLink nodes ((sortedComponents nodes links).headD []) comp ∧
        lnk.source = comp.headD "" ∧ lnk.source ∈ nodeIds nodes ∧
        lnk.target ∈ (sortedComponents nodes links).headD [] ∧
        lnk.target ∈ nodeIds nodes) ∧
    (¬ (tpComponents nodes links).length ≤ 1 →
      ∀ comp ∈ tpComponents nodes links,
        comp.length ≤ ((sortedComponents nodes links).headD []).length) := by
  refine ⟨refint_out nodes links href, ?_, ?_⟩
  · intro lnk hlnk
    by_cases h : (tpComponents nodes links).length ≤ 1
    · have hl : (connectIsolatedNodes nodes links).links = links := by
        rw [connectIsolatedNodes_of_le nodes links h]
      rw [hl, List.drop_length] at hlnk
      cases hlnk
    · have hl : (connectIsolatedNodes nodes links).links =
          links ++ ((sortedComponents nodes links).drop 1).map
            (mkInferredLink nodes ((sortedComponents nodes links).headD [])) := by
        rw [connectIsolatedNodes_of_gt nodes links h]
      rw [hl, List.drop_left] at hlnk
      obtain ⟨comp, hcomp, rfl⟩ := List.mem_map.mp hlnk
      obtain ⟨e1, _, e3, e4, e5⟩ := mkInferredLink_endpoints nodes links href h hcomp
      exact ⟨comp, hcomp, rfl, e1, e3, e4, e5⟩
  · intro h comp hcomp
    have hsorted :=
      List.sorted_insertionSort (fun (a b : List String) => b.length ≤ a.length)
        (tpComponents nodes links)
    have hne : sortedComponents nodes links ≠ [] := by
      intro hcon
      have := sortedComponents_length nodes links
      rw [hcon] at this
      simp only [List.length_nil] at this
      omega
    have hcs := sortedComponents_cons nodes links hne
    have hmem : comp ∈ sortedComponents nodes links :=
      (sortedComponents_mem nodes links).mpr hcomp
    rw [hcs] at hmem
    rcases List.mem_cons.mp hmem with rfl | hmem
    · exact le_refl _
    · have hsorted' : List.Sorted (fun (a b : List String) => b.length ≤ a.length)
          (((sortedComponents nodes links).headD []) ::
            (sortedComponents nodes links).drop 1) := by
        rw [← hcs]
        exact hsorted
      exact List.rel_of_sorted_cons hsorted' comp hmem

/-- Witness for C10. -/
theorem connectIsolatedNodes_endpoints_valid_witness :
    RefInt [⟨"A", 1, none, none⟩, ⟨"B", 1, none, none⟩] [] ∧
    RefInt [⟨"A", 1, none, none⟩, ⟨"B", 1, none, none⟩]
      (connectIsolatedNodes [⟨"A", 1, none, none⟩, ⟨"B", 1, none, none⟩] []).links :=
  ⟨by decide, (connectIsolatedNodes_endpoints_valid _ _ (by decide)).1⟩

/-- **C4 (amended).** Every link synthesized by `connectIsolatedNodes` has
weight (`value`) 1, type `"inferred_relation"` and the fixed inferred
context string; its `isInferred` property is **not** set (the `Link` type
used by `textProcessor` has no such field, and the pushed object literal
does not mention it), so it is `none`/`undefined` rather than `true`. -/
theorem connectIsolatedNodes_inferred_fields
    (nodes : List Entity) (links : List Relationship) :
    ∀ lnk ∈ (connectIsolatedNodes nodes links).links.drop links.length,
      lnk.value = 1 ∧ lnk.type = some "inferred_relation" ∧
      lnk.context = some "Inferred relationship based on domain similarity" ∧
      lnk.isInferred = none := by
  intro lnk hlnk
  by_cases h : (tpComponents nodes links).length ≤ 1
  · have hl : (connectIsolatedNodes nodes links).links = links := by
      rw [connectIsolatedNodes_of_le nodes links h]
    rw [hl, List.drop_length] at hlnk
    cases hlnk
  · have hl : (connectIsolatedNodes nodes links).links =
        links ++ ((sortedComponents nodes links).drop 1).map
          (mkInferredLink nodes ((sortedComponents nodes links).headD [])) := by
      rw [connectIsolatedNodes_of_gt nodes links h]
    rw [hl, List.drop_left] at hlnk
    obtain ⟨comp, _, rfl⟩ := List.mem_map.mp hlnk
    obtain ⟨_, f2, f3, f4, f5⟩ := mkInferredLink_fields nodes
      ((sortedComponents nodes links).headD []) comp
    exact ⟨f2, f3, f4, f5⟩

/-- Witness for C4 (amended): the single link added on nodes `A`, `B`
with no input links. -/
theorem connectIsolatedNodes_inferred_fields_witness :
    (⟨"B", "A", 1, some "inferred_relation",
      some "Inferred relationship based on domain similarity", none⟩ : Relationship)
      ∈ (connectIsolatedNodes
          [⟨"A", 1, none, none⟩, ⟨"B", 1, none, none⟩] []).links.drop
          ([] : List Relationship).length ∧
    ((⟨"B", "A", 1, some "inferred_relation",
      some "Inferred relationship based on domain similarity", none⟩ : Relationship).value
        = 1 ∧
     (⟨"B", "A", 1, some "inferred_relation",
      some "Inferred relationship based on domain similarity", none⟩ : Relationship).type
        = some "inferred_relation" ∧
     (⟨"B", "A", 1, some "inferred_relation",
      some "Inferred relationship based on domain similarity", none⟩ : Relationship).context
        = some "Inferred relationship based on domain similarity" ∧
     (⟨"B", "A", 1, some "inferred_relation",
      some "Inferred relationship based on domain similarity", none⟩ : Relationship).isInferred
        = none) := by
  have heq : (connectIsolatedNodes
      [⟨"A", 1, none, none⟩, ⟨"B", 1, none, none⟩] []).links.drop
      ([] : List Relationship).length =
      [⟨"B", "A", 1, some "inferred_relation",
        some "Inferred relationship based on domain similarity", none⟩] :=
    of_decide_eq_true (by with_unfolding_all rfl)
  have hmem : (⟨"B", "A", 1, some "inferred_relation",
      some "Inferred relationship based on domain similarity", none⟩ : Relationship)
      ∈ (connectIsolatedNodes
          [⟨"A", 1, none, none⟩, ⟨"B", 1, none, none⟩] []).links.drop
          ([] : List Relationship).length := by
    rw [heq]
    exact List.mem_singleton.mpr rfl
  exact ⟨hmem, connectIsolatedNodes_inferred_fields
    [⟨"A", 1, none, none⟩, ⟨"B", 1, none, none⟩] [] _ hmem⟩

/-- **C4 counterexample.** On nodes `A`, `B` with no links the repairer
synthesizes exactly one link, and its `isInferred` property is `none`
(unset), not `true` — refuting "isInferred set to true". -/
theorem connectIsolatedNodes_isInferred_cex :
    ((connectIsolatedNodes [⟨"A", 1, none, none⟩, ⟨"B", 1, none, none⟩] []).links.map
      (fun l => l.isInferred)) = [none] ∧
    ¬ (∀ lnk ∈ (connectIsolatedNodes
          [⟨"A", 1, none, none⟩, ⟨"B", 1, none, none⟩] []).links,
        lnk.isInferred = some true) := by
  constructor
  · decide
  · decide

end TP

/-! # `GA` — `src/utils/graphAnalytics.ts`

The file's local `Node`/`Link` interfaces: `{id, group, pageRank?, size?}`
and `{source, target, value, type?}`. -/

namespace GA

structure Node where
  id : String
  group : Int
  pageRank : Option ℚ := none
  size : Option ℚ := none
deriving DecidableEq

structure Link where
  source : String
  target : String
  value : ℚ
  type : Option String := none
deriving DecidableEq

structure GraphData where
  nodes : List Node
  links : List Link
deriving DecidableEq

def nodeIds (nodes : List Node) : List String := nodes.map (·.id)

def RefInt (data : GraphData) : Prop :=
  ∀ l ∈ data.links, l.source ∈ nodeIds data.nodes ∧ l.target ∈ nodeIds data.nodes

instance (data : GraphData) : Decidable (RefInt data) := by
  unfold RefInt; infer_instance

def dampingFactor : ℚ := 85/100

def iterations : Nat := 100

/-- `nodeMap`: per-node accumulated outgoing link weight (the `in` field is
also accumulated by the source but never read, so it is not modelled). -/
def outMap (nodes : List Node) (links : List Link) : String → Option ℚ :=
  links.foldl (fun m l => fun x => if x = l.source then (m x).map (· + l.value) else m x)
    (fun x => if x ∈ nodeIds nodes then some 0 else none)

/-- `nodeMap.get(sourceId)?.out || 1` (note `0` is falsy in JavaScript). -/
def sourceDegree (outM : String → Option ℚ) (s : String) : ℚ :=
  match outM s with
  | none => 1
  | some o => if o = 0 then 1 else o

/-- The body of one PageRank update for the node with id `nid`:
`(1 - d)/N + d × Σ over incoming links of rank(source)·weight/outDegree(source)`
(`pageRanks.get(sourceId) || 0` for an absent source rank). -/
def newRankOf (nodes : List Node) (links : List Link) (outM : String → Option ℚ)
    (pageRanks : String → Option ℚ) (nid : String) : ℚ :=
  let incomingLinks := links.filter (fun l => l.target == nid)
  let rankSum := (incomingLinks.map (fun l =>
    ((pageRanks l.source).getD 0 * l.value) / sourceDegree outM l.source)).sum
  (1 - dampingFactor) / (nodes.length : ℚ) + dampingFactor * rankSum

/-- One iteration of the PageRank loop: a fresh map, set per node. -/
def prStep (nodes : List Node) (links : List Link) (outM : String → Option ℚ)
    (pageRanks : String → Option ℚ) : String → Option ℚ :=
  nodes.foldl (fun newRanks node =>
    fun x => if x = node.id then some (newRankOf nodes links outM pageRanks node.id)
             else newRanks x)
    (fun _ => none)

/-- The PageRank map after `k` iterations (initialised to `1/N` per node). -/
def pageRanksAfter (nodes : List Node) (links : List Link) : Nat → (String → Option ℚ)
  | 0 => fun x => if x ∈ nodeIds nodes then some (1 / (nodes.length : ℚ)) else none
  | k+1 => prStep nodes links (outMap nodes links) (pageRanksAfter nodes links k)

/-- `const maxRank = Math.max(...Array.from(pageRanks.values()))` after
the final iteration: the map holds one entry per distinct node id; the
`getD 0` default is only reachable for an empty node list, where the
caller's result is `[]` anyway (in JavaScript the max of no values is
`-Infinity`, likewise never used). -/
def maxRankOf (nodes : List Node) (links : List Link) : ℚ :=
  (((nodeIds nodes).dedup).map
    (fun i => (pageRanksAfter nodes links iterations i).getD 0)).max?.getD 0

/-- `calculateCentrality`: run the fixed 100-iteration PageRank loop,
normalise by the maximum rank and derive the visual size
`5 + importance × 25`. -/
def calculateCentrality (nodes : List Node) (links : List Link) : List Node :=
  nodes.map (fun node =>
    { node with
      pageRank := some ((pageRanksAfter nodes links iterations node.id).getD 0 /
        maxRankOf nodes links),
      size := some (5 + ((pageRanksAfter nodes links iterations node.id).getD 0 /
        maxRankOf nodes links) * 25) })

/-- `calculateLinkWeights`: rescale weights linearly to `[1, 5]`; when
`maxWeight - minWeight` is not positive every link gets `1`. On an empty
link list JavaScript computes `range = -Infinity` (not `> 0`), and the map
over no links is empty; the `none` branch mirrors that. -/
def calculateLinkWeights (links : List Link) : List Link :=
  match (links.map (·.value)).max?, (links.map (·.value)).min? with
  | some maxWeight, some minWeight =>
    links.map (fun link =>
      { link with value := if 0 < maxWeight - minWeight
          then 1 + ((link.value - minWeight) / (maxWeight - minWeight)) * 4 else 1 })
  | _, _ => links.map (fun link => { link with value := 1 })

def gaAdj (nodes : List Node) (links : List Link) : String → List String :=
  fun x =>
    ((buildAdjMap (nodeIds nodes) (links.map (fun l => (l.source, l.target)))) x).getD []

def gaUniv (nodes : List Node) (links : List Link) : List String :=
  nodeIds nodes ++ links.map (·.source) ++ links.map (·.target)

def gaFuel (nodes : List Node) (links : List Link) : Nat :=
  (gaUniv nodes links).length + 1

/-- `communities[nodeId] = communityId` inside the flood fill. -/
def assignAdd (cid : Int) : (String → Option Int) → String → (String → Option Int) :=
  fun m u => fun x => if x = u then some cid else m x

/-- One step of the community outer loop: flood-fill from an unvisited
node id with the current `communityId`, then increment it. -/
def detectStep (adj : String → List String) (fuel : Nat) :
    List String × (String → Option Int) × Int → String →
      List String × (String → Option Int) × Int :=
  fun st nid =>
    if nid ∈ st.1 then st
    else
      let r := dfsGen adj (assignAdd st.2.2) fuel nid (st.1, st.2.1)
      (r.1, r.2, st.2.2 + 1)

/-- `detectCommunities`: flood-fill (`assignCommunity`, the shared DFS
recursion) from each not-yet-visited node, assigning `communityId++`
sequentially. Returns the `communities` record. -/
def detectCommunities (nodes : List Node) (links : List Link) : String → Option Int :=
  (nodes.foldl (fun st node =>
      detectStep (gaAdj nodes links) (gaFuel nodes links) st node.id)
    ([], fun _ => none, 0)).2.1

/-- `analyzeGraph`: centrality, link-weight normalisation, communities,
then `group: communities[node.id] || node.group` (`0` is falsy!). -/
def analyzeGraph (data : GraphData) : GraphData :=
  let nodes := calculateCentrality data.nodes data.links
  let links := calculateLinkWeights data.links
  let communities := detectCommunities nodes links
  ⟨nodes.map (fun node =>
      { node with
        group := match communities node.id with
          | some c => if c = 0 then node.group else c
          | none => node.group }),
    links⟩

theorem gaAdj_mem (nodes : List Node) (links : List Link) (a b : String) :
    b ∈ gaAdj nodes links a ↔
      a ∈ nodeIds nodes ∧
        ∃ l ∈ links, (l.source = a ∧ l.target = b) ∨ (l.target = a ∧ l.source = b) := by
  unfold gaAdj
  rw [mem_buildAdjMap]
  constructor
  · rintro ⟨ha, e, he, hcase⟩
    obtain ⟨l, hl, rfl⟩ := List.mem_map.mp he
    exact ⟨ha, l, hl, hcase⟩
  · rintro ⟨ha, l, hl, hcase⟩
    exact ⟨ha, (l.source, l.target), List.mem_map.mpr ⟨l, hl, rfl⟩, hcase⟩

theorem gaAdj_sub_univ (nodes : List Node) (links : List Link) :
    ∀ x, ∀ w ∈ gaAdj nodes links x, w ∈ gaUniv nodes links := by
  intro x w hw
  obtain ⟨_, l, hl, hcase⟩ := (gaAdj_mem nodes links x w).mp hw
  unfold gaUniv
  rcases hcase with ⟨_, rfl⟩ | ⟨_, rfl⟩
  · exact List.mem_append_right _ (List.mem_map.mpr ⟨l, hl, rfl⟩)
  · exact List.mem_append.mpr
      (Or.inl (List.mem_append_right _ (List.mem_map.mpr ⟨l, hl, rfl⟩)))

theorem gaAdj_sub_ids (nodes : List Node) (links : List Link)
    (href : ∀ l ∈ links, l.source ∈ nodeIds nodes ∧ l.target ∈ nodeIds nodes) :
    ∀ x, ∀ w ∈ gaAdj nodes links x, w ∈ nodeIds nodes := by
  intro x w hw
  obtain ⟨_, l, hl, hcase⟩ := (gaAdj_mem nodes links x w).mp hw
  rcases hcase with ⟨_, rfl⟩ | ⟨_, rfl⟩
  · exact (href l hl).2
  · exact (href l hl).1

theorem gaAdj_symm (nodes : List Node) (links : List Link)
    (href : ∀ l ∈ links, l.source ∈ nodeIds nodes ∧ l.target ∈ nodeIds nodes) :
    ∀ a b, adjRel (gaAdj nodes links) a b → adjRel (gaAdj nodes links) b a := by
  intro a b hab
  obtain ⟨_, l, hl, hcase⟩ := (gaAdj_mem nodes links a b).mp hab
  unfold adjRel
  rw [gaAdj_mem]
  rcases hcase with ⟨h1, h2⟩ | ⟨h1, h2⟩
  · exact ⟨by rw [← h2]; exact (href l hl).2, l, hl, Or.inr ⟨h2, h1⟩⟩
  · exact ⟨by rw [← h2]; exact (href l hl).1, l, hl, Or.inl ⟨h2, h1⟩⟩

theorem foldl_assignAdd (K : Int) :
    ∀ (l : List String) (m : String → Option Int) (x : String),
      (l.foldl (assignAdd K) m) x = if x ∈ l then some K else m x := by
  intro l
  induction l with
  | nil => intro m x; simp
  | cons a t ih =>
    intro m x
    rw [List.foldl_cons, ih]
    unfold assignAdd
    by_cases hx : x ∈ t
    · rw [if_pos hx, if_pos (List.mem_cons_of_mem _ hx)]
    · rw [if_neg hx]
      by_cases hxa : x = a
      · rw [if_pos hxa, if_pos (by rw [hxa]; exact List.mem_cons_self _ _)]
      · have hnc : x ∉ a :: t := by
          intro hc
          rcases List.mem_cons.mp hc with h | h
          · exact hxa h
          · exact hx h
        rw [if_neg hxa, if_neg hnc]

/-- `calculateCentrality` preserves the node-id list. -/
theorem nodeIds_calculateCentrality (nodes : List Node) (links : List Link) :
    nodeIds (calculateCentrality nodes links) = nodeIds nodes := by
  unfold nodeIds calculateCentrality
  rw [List.map_map]
  exact List.map_congr_left (fun n _ => rfl)

/-- `calculateLinkWeights` preserves link endpoints. -/
theorem endpoints_calculateLinkWeights (links : List Link) :
    (calculateLinkWeights links).map (fun l => (l.source, l.target)) =
      links.map (fun l => (l.source, l.target)) := by
  unfold calculateLinkWeights
  cases (links.map (fun l => l.value)).max? <;>
    cases (links.map (fun l => l.value)).min? <;>
    · rw [List.map_map]
      exact List.map_congr_left (fun l _ => rfl)

/-- The adjacency built from the analysed nodes/links equals the one built
from the raw input. -/
theorem gaAdj_analyzed (nodes : List Node) (links : List Link) :
    gaAdj (calculateCentrality nodes links) (calculateLinkWeights links) =
      gaAdj nodes links := by
  funext x
  unfold gaAdj
  rw [nodeIds_calculateCentrality, endpoints_calculateLinkWeights]

/-- Invariant of the community outer loop: the visited set consists of
node ids, is adjacency-closed, the map is defined exactly on it, two
visited ids share a community value iff they are mutually reachable, all
assigned ids lie in `[0, communityId)`, and every value below
`communityId` is assigned somewhere. -/
structure DetectInv (adj : String → List String) (ids : List String)
    (st : List String × (String → Option Int) × Int) : Prop where
  sub_ids : st.1 ⊆ ids
  closed : Closed adj st.1
  dom : ∀ u, ((st.2.1 u).isSome = true) ↔ u ∈ st.1
  classes : ∀ u v, u ∈ st.1 → v ∈ st.1 → (st.2.1 u = st.2.1 v ↔ Reach adj u v)
  range : ∀ u ∈ st.1, ∃ i : Int, st.2.1 u = some i ∧ 0 ≤ i ∧ i < st.2.2
  surj : ∀ i : Int, 0 ≤ i → i < st.2.2 → ∃ u ∈ st.1, st.2.1 u = some i
  cid_nonneg : 0 ≤ st.2.2

theorem detectStep_preserves (adj : String → List String) (ids univ : List String)
    (fuel : Nat) (hadj : ∀ x, ∀ w ∈ adj x, w ∈ univ)
    (hadjIds : ∀ x, ∀ w ∈ adj x, w ∈ ids)
    (hsym : ∀ a b, adjRel adj a b → adjRel adj b a)
    (hfuel : univ.length < fuel)
    (st : List String × (String → Option Int) × Int) (r : String)
    (hrU : r ∈ univ) (hrI : r ∈ ids) (inv : DetectInv adj ids st) :
    DetectInv adj ids (detectStep adj fuel st r) ∧
      st.1 ⊆ (detectStep adj fuel st r).1 ∧ r ∈ (detectStep adj fuel st r).1 := by
  by_cases hr : r ∈ st.1
  · have hstep : detectStep adj fuel st r = st := by
      unfold detectStep; rw [if_pos hr]
    rw [hstep]
    exact ⟨inv, fun _ h => h, hr⟩
  · have hstep : detectStep adj fuel st r =
        ((dfsGen adj (assignAdd st.2.2) fuel r (st.1, st.2.1)).1,
         (dfsGen adj (assignAdd st.2.2) fuel r (st.1, st.2.1)).2, st.2.2 + 1) := by
      unfold detectStep; rw [if_neg hr]
    have hpost := dfsGen_post adj univ (assignAdd st.2.2) hadj fuel r (st.1, st.2.1)
      hrU hr (lt_of_le_of_lt (unvisited_le_length univ st.1) hfuel)
    obtain ⟨δ, hδ1, hδ2, hδ3⟩ := hpost.trace
    set res := dfsGen adj (assignAdd st.2.2) fuel r (st.1, st.2.1) with hres
    -- value of the new map
    have hmap : ∀ x, res.2 x = if x ∈ r :: δ then some st.2.2 else st.2.1 x := by
      intro x
      rw [hδ2, foldl_assignAdd]
    have hsplit : ∀ x, x ∈ res.1 ↔ x ∈ st.1 ∨ x ∈ r :: δ := by
      intro x
      rw [hδ1]
      exact List.mem_append
    -- members of the new class are exactly reachable from the root
    have hnew_reach : ∀ x ∈ r :: δ, Reach adj r x := by
      intro x hx
      have hx' : x ∈ res.1 := by rw [hδ1]; exact List.mem_append_right _ hx
      rcases hpost.reach x hx' with hold | hreach
      · exact absurd hold (hδ3 x hx)
      · exact hreach
    have hclosed' : Closed adj res.1 := dfsPost_closed hpost inv.closed
    have hnot_old_new : ∀ u ∈ st.1, ∀ x ∈ r :: δ, ¬ Reach adj u x := by
      intro u hu x hx hcon
      exact hδ3 x hx (reach_mem_of_closed inv.closed hu hcon)
    rw [hstep]
    refine ⟨⟨?_, hclosed', ?_, ?_, ?_, ?_, ?_⟩, ?_, ?_⟩ <;> dsimp only
    · -- sub_ids
      intro x hx
      rcases (hsplit x).mp hx with hx | hx
      · exact inv.sub_ids hx
      · exact reach_mem_of_closed (fun y _ w hw => hadjIds y w hw) hrI (hnew_reach x hx)
    · -- dom
      intro u
      rw [hmap u, hsplit u]
      by_cases hu : u ∈ r :: δ
      · simp [hu]
      · rw [if_neg hu]
        rw [inv.dom u]
        constructor
        · exact Or.inl
        · rintro (h | h)
          · exact h
          · exact absurd h hu
    · -- classes
      intro u v hu hv
      rcases (hsplit u).mp hu with hu' | hu' <;> rcases (hsplit v).mp hv with hv' | hv'
      · -- both old: map values unchanged
        have hun : u ∉ r :: δ := fun hc => hδ3 u hc hu'
        have hvn : v ∉ r :: δ := fun hc => hδ3 v hc hv'
        rw [hmap u, hmap v, if_neg hun, if_neg hvn]
        exact inv.classes u v hu' hv'
      · -- u old, v new: communities differ and not reachable
        have hun : u ∉ r :: δ := fun hc => hδ3 u hc hu'
        rw [hmap u, hmap v, if_neg hun, if_pos hv']
        obtain ⟨i, hi, _, hilt⟩ := inv.range u hu'
        constructor
        · intro hc
          rw [hi] at hc
          exact absurd (Option.some.inj hc) (by omega)
        · intro hc
          exact absurd (Relation.ReflTransGen.trans hc
            (reach_symm hsym (hnew_reach v hv'))) (by
              intro hcon
              exact hnot_old_new u hu' r (List.mem_cons_self _ _) hcon)
      · -- u new, v old: symmetric
        have hvn : v ∉ r :: δ := fun hc => hδ3 v hc hv'
        rw [hmap u, hmap v, if_pos hu', if_neg hvn]
        obtain ⟨i, hi, _, hilt⟩ := inv.range v hv'
        constructor
        · intro hc
          rw [hi] at hc
          exact absurd (Option.some.inj hc.symm) (by omega)
        · intro hc
          have hrv : Reach adj r v := Relation.ReflTransGen.trans (hnew_reach u hu') hc
          exact absurd (reach_symm hsym hrv)
            (hnot_old_new v hv' r (List.mem_cons_self _ _))
      · -- both new: same community, mutually reachable
        rw [hmap u, hmap v, if_pos hu', if_pos hv']
        constructor
        · intro _
          exact Relation.ReflTransGen.trans
            (reach_symm hsym (hnew_reach u hu')) (hnew_reach v hv')
        · intro _
          rfl
    · -- range
      intro u hu
      rcases (hsplit u).mp hu with hu' | hu'
      · have hun : u ∉ r :: δ := fun hc => hδ3 u hc hu'
        rw [hmap u, if_neg hun]
        obtain ⟨i, hi, h0, hlt⟩ := inv.range u hu'
        exact ⟨i, hi, h0, by omega⟩
      · rw [hmap u, if_pos hu']
        exact ⟨st.2.2, rfl, inv.cid_nonneg, by omega⟩
    · -- surj
      intro i h0 hlt
      by_cases hiK : i < st.2.2
      · obtain ⟨u, hu, hval⟩ := inv.surj i h0 hiK
        refine ⟨u, (hsplit u).mpr (Or.inl hu), ?_⟩
        rw [hmap u, if_neg (fun hc => hδ3 u hc hu)]
        exact hval
      · have : i = st.2.2 := by omega
        subst this
        refine ⟨r, (hsplit r).mpr (Or.inr (List.mem_cons_self _ _)), ?_⟩
        rw [hmap r, if_pos (List.mem_cons_self _ _)]
    · -- cid_nonneg
      have := inv.cid_nonneg
      omega
    · -- st.1 ⊆ result
      exact hpost.sub
    · -- r visited
      exact hpost.root_mem

theorem detectLoop_inv (adj : String → List String) (ids univ : List String)
    (fuel : Nat) (hadj : ∀ x, ∀ w ∈ adj x, w ∈ univ)
    (hadjIds : ∀ x, ∀ w ∈ adj x, w ∈ ids)
    (hsym : ∀ a b, adjRel adj a b → adjRel adj b a)
    (hfuel : univ.length < fuel) :
    ∀ (roots : List String) (st : List String × (String → Option Int) × Int),
      roots ⊆ univ → roots ⊆ ids → DetectInv adj ids st →
      DetectInv adj ids (roots.foldl (detectStep adj fuel) st) ∧
      st.1 ⊆ (roots.foldl (detectStep adj fuel) st).1 ∧
      (∀ r ∈ roots, r ∈ (roots.foldl (detectStep adj fuel) st).1) := by
  intro roots
  induction roots with
  | nil =>
    intro st _ _ inv
    exact ⟨inv, fun _ h => h, by intro r hr; cases hr⟩
  | cons r roots ih =>
    intro st hrootsU hrootsI inv
    rw [List.foldl_cons]
    obtain ⟨inv', hsub', hr'⟩ := detectStep_preserves adj ids univ fuel hadj hadjIds
      hsym hfuel st r (hrootsU (List.mem_cons_self _ _)) (hrootsI (List.mem_cons_self _ _))
      inv
    obtain ⟨inv'', hsub'', hall''⟩ := ih (detectStep adj fuel st r)
      (fun x hx => hrootsU (List.mem_cons_of_mem _ hx))
      (fun x hx => hrootsI (List.mem_cons_of_mem _ hx)) inv'
    refine ⟨inv'', fun x hx => hsub'' (hsub' hx), ?_⟩
    intro x hx
    rcases List.mem_cons.mp hx with rfl | hx
    · exact hsub'' hr'
    · exact hall'' x hx

theorem refint_analyzed (data : GraphData) (href : RefInt data) :
    ∀ l ∈ calculateLinkWeights data.links,
      l.source ∈ nodeIds (calculateCentrality data.nodes data.links) ∧
      l.target ∈ nodeIds (calculateCentrality data.nodes data.links) := by
  intro l hl
  rw [nodeIds_calculateCentrality]
  have hpair : (l.source, l.target) ∈
      (calculateLinkWeights data.links).map (fun l => (l.source, l.target)) :=
    List.mem_map.mpr ⟨l, hl, rfl⟩
  rw [endpoints_calculateLinkWeights] at hpair
  obtain ⟨l₀, hl₀, heq⟩ := List.mem_map.mp hpair
  have hs : l₀.source = l.source := congrArg Prod.fst heq
  have ht : l₀.target = l.target := congrArg Prod.snd heq
  rw [← hs, ← ht]
  exact href l₀ hl₀

/-- The community map computed inside `analyzeGraph` (on the analysed
nodes and rescaled links). -/
def communitiesOf (data : GraphData) : String → Option Int :=
  detectCommunities (calculateCentrality data.nodes data.links)
    (calculateLinkWeights data.links)

theorem length_calculateCentrality (nodes : List Node) (links : List Link) :
    (calculateCentrality nodes links).length = nodes.length := by
  unfold calculateCentrality
  rw [List.length_map]

/-- The final state of the community outer loop satisfies the loop
invariant, with all node ids visited. -/
theorem communitiesOf_spec (data : GraphData) (href : RefInt data) :
    ∃ st : List String × (String → Option Int) × Int,
      communitiesOf data = st.2.1 ∧
      DetectInv (gaAdj data.nodes data.links) (nodeIds data.nodes) st ∧
      (∀ r ∈ nodeIds data.nodes, r ∈ st.1) := by
  have href' := refint_analyzed data href
  set nodes' := calculateCentrality data.nodes data.links with hn
  set links' := calculateLinkWeights data.links with hl
  have hids : nodeIds nodes' = nodeIds data.nodes := nodeIds_calculateCentrality _ _
  have hadj := gaAdj_sub_univ nodes' links'
  have hadjIds := gaAdj_sub_ids nodes' links' href'
  have hsym := gaAdj_symm nodes' links' href'
  have hfuel : (gaUniv nodes' links').length < gaFuel nodes' links' := by
    unfold gaFuel; omega
  have hrootsU : nodeIds nodes' ⊆ gaUniv nodes' links' := by
    intro x hx
    unfold gaUniv
    exact List.mem_append_left _ (List.mem_append_left _ hx)
  have invInit : DetectInv (gaAdj nodes' links') (nodeIds nodes')
      ([], fun _ => none, 0) := by
    refine ⟨fun x hx => absurd hx (List.not_mem_nil x), fun u hu => absurd hu
      (List.not_mem_nil u), ?_, ?_, ?_, ?_, le_refl 0⟩
    · intro u; simp
    · intro u v hu _; exact absurd hu (List.not_mem_nil u)
    · intro u hu; exact absurd hu (List.not_mem_nil u)
    · intro i h0 hlt
      dsimp only at hlt
      omega
  obtain ⟨invF, hsubF, hallF⟩ := detectLoop_inv (gaAdj nodes' links')
    (nodeIds nodes') (gaUniv nodes' links') (gaFuel nodes' links')
    hadj hadjIds hsym hfuel (nodeIds nodes') ([], fun _ => none, 0)
    hrootsU (fun _ h => h) invInit
  refine ⟨(nodeIds nodes').foldl
    (detectStep (gaAdj nodes' links') (gaFuel nodes' links')) ([], fun _ => none, 0),
    ?_, ?_, ?_⟩
  · show detectCommunities nodes' links' = _
    unfold detectCommunities nodeIds
    rw [List.foldl_map]
  · rw [← gaAdj_analyzed data.nodes data.links, ← hids]
    exact invF
  · rw [← hids]
    exact hallF

/-- **C2 (amended).** After `analyzeGraph`'s community-assignment step,
each connected component of the undirected adjacency receives a
sequential integer community id starting at 0 (same component ⟺ same id,
ids non-negative, no gaps); a node's `group` is overwritten with its
community id **when that id is non-zero** — nodes of community 0 (the
first-discovered component) keep their prior `group`, because
`communities[node.id] || node.group` treats the id `0` as falsy. -/
theorem analyzeGraph_communities_spec (data : GraphData) (href : RefInt data) :
    (∀ u ∈ nodeIds data.nodes, ∃ i : Int, communitiesOf data u = some i ∧ 0 ≤ i) ∧
    (∀ u v, u ∈ nodeIds data.nodes → v ∈ nodeIds data.nodes →
      (communitiesOf data u = communitiesOf data v ↔
        Reach (gaAdj data.nodes data.links) u v)) ∧
    (∀ i j : Int, 0 ≤ i → i < j →
      (∃ u ∈ nodeIds data.nodes, communitiesOf data u = some j) →
      ∃ v ∈ nodeIds data.nodes, communitiesOf data v = some i) ∧
    (analyzeGraph data).nodes.length = data.nodes.length ∧
    (∀ k (hk : k < data.nodes.length) (hk2 : k < (analyzeGraph data).nodes.length),
      ((analyzeGraph data).nodes.get ⟨k, hk2⟩).group =
        match communitiesOf data ((data.nodes.get ⟨k, hk⟩).id) with
        | some c => if c = 0 then (data.nodes.get ⟨k, hk⟩).group else c
        | none => (data.nodes.get ⟨k, hk⟩).group) := by
  obtain ⟨st, hst, inv, hall⟩ := communitiesOf_spec data href
  refine ⟨?_, ?_, ?_, ?_, ?_⟩
  · intro u hu
    obtain ⟨i, hi, h0, _⟩ := inv.range u (hall u hu)
    exact ⟨i, by rw [hst]; exact hi, h0⟩
  · intro u v hu hv
    rw [hst]
    exact inv.classes u v (hall u hu) (hall v hv)
  · intro i j h0 hij ⟨u, hu, hju⟩
    rw [hst] at hju
    obtain ⟨j', hj', _, hj'lt⟩ := inv.range u (hall u hu)
    rw [hju] at hj'
    have hjK : j < st.2.2 := by
      have := Option.some.inj hj'
      omega
    obtain ⟨v, hv, hvv⟩ := inv.surj i h0 (by omega)
    exact ⟨v, inv.sub_ids hv, by rw [hst]; exact hvv⟩
  · show ((calculateCentrality data.nodes data.links).map _).length = _
    rw [List.length_map, length_calculateCentrality]
  · intro k hk hk2
    have hAG : (analyzeGraph data).nodes =
        (calculateCentrality data.nodes data.links).map (fun node =>
          { node with
            group := match communitiesOf data node.id with
              | some c => if c = 0 then node.group else c
              | none => node.group }) := rfl
    rw [List.get_eq_getElem, List.get_eq_getElem]
    simp only [hAG, List.getElem_map]
    simp only [calculateCentrality, List.getElem_map]

/-- Witness for C2 (amended). -/
theorem analyzeGraph_communities_spec_witness :
    RefInt ⟨[⟨"A", 7, none, none⟩, ⟨"B", 9, none, none⟩], []⟩ ∧
    (∃ i : Int, communitiesOf ⟨[⟨"A", 7, none, none⟩, ⟨"B", 9, none, none⟩], []⟩ "A"
      = some i ∧ 0 ≤ i) :=
  ⟨by decide, (analyzeGraph_communities_spec _ (by decide)).1 "A" (by decide)⟩

/-- **C2 counterexample.** A single node `A` with prior `group = 5` and no
links: its connected component is assigned community id 0, yet
`analyzeGraph` leaves its `group` at 5 (`0` is falsy in
`communities[node.id] || node.group`), so the node's `group` is **not**
overwritten with its component's community id. -/
theorem analyzeGraph_group_not_overwritten_cex :
    (analyzeGraph ⟨[⟨"A", 5, none, none⟩], []⟩).nodes.map (fun n => n.group) = [5] ∧
    communitiesOf ⟨[⟨"A", 5, none, none⟩], []⟩ "A" = some 0 := by
  constructor
  · decide
  · decide

/-- **C9.** `analyzeGraph` never divides by zero: on a (referentially
intact) graph with zero nodes it is a no-op returning the empty graph —
the PageRank loop, normalisation and weight rescaling all operate on
nothing — and when all link weights are equal the normalisation branch
assigns every link the range minimum `1` instead of evaluating
`(value - min)/(max - min)`. -/
theorem analyzeGraph_degenerate_safe :
    (∀ data : GraphData, RefInt data → data.nodes = [] → analyzeGraph data = ⟨[], []⟩) ∧
    (∀ (links : List Link) (c : ℚ), (∀ l ∈ links, l.value = c) →
      calculateLinkWeights links = links.map (fun l => { l with value := 1 })) := by
  constructor
  · intro data href hnil
    have hlinks : data.links = [] := by
      rw [List.eq_nil_iff_forall_not_mem]
      intro l hl
      have hsrc := (href l hl).1
      rw [hnil] at hsrc
      cases hsrc
    have hdata : data = ⟨[], []⟩ := by
      cases data with
      | mk n l =>
        simp only at hnil hlinks
        rw [hnil, hlinks]
    rw [hdata]
    rfl
  · intro links c hval
    by_cases hnil : links = []
    · subst hnil; rfl
    · have hvals_ne : links.map (fun l => l.value) ≠ [] := by
        simp [hnil]
      cases hmax : (links.map (fun l => l.value)).max? with
      | none => exact absurd (List.max?_eq_none_iff.mp hmax) hvals_ne
      | some M =>
        cases hmin : (links.map (fun l => l.value)).min? with
        | none => exact absurd (List.min?_eq_none_iff.mp hmin) hvals_ne
        | some m =>
          have hMc : M = c := by
            have hmem := List.max?_mem max_choice hmax
            obtain ⟨l, hl, hlv⟩ := List.mem_map.mp hmem
            rw [← hlv]
            exact hval l hl
          have hmc : m = c := by
            have hmem := List.min?_mem min_choice hmin
            obtain ⟨l, hl, hlv⟩ := List.mem_map.mp hmem
            rw [← hlv]
            exact hval l hl
          unfold calculateLinkWeights
          rw [hmax, hmin, hMc, hmc]
          simp only [sub_self, lt_irrefl, if_false]

/-- Witness for C9: the empty graph, and a two-link list of equal weight 5
rescaled to all-1. -/
theorem analyzeGraph_degenerate_safe_witness :
    RefInt ⟨[], []⟩ ∧ analyzeGraph ⟨[], []⟩ = ⟨[], []⟩ ∧
    calculateLinkWeights
      [⟨"X", "Y", 5, none⟩, ⟨"Y", "X", 5, none⟩] =
      [⟨"X", "Y", 1, none⟩, ⟨"Y", "X", 1, none⟩] := by
  have href : RefInt (⟨[], []⟩ : GraphData) := by
    intro l hl; cases hl
  have hval : ∀ l ∈ [(⟨"X", "Y", 5, none⟩ : Link), ⟨"Y", "X", 5, none⟩], l.value = 5 := by
    intro l hl
    rcases List.mem_cons.mp hl with rfl | hl
    · rfl
    · rcases List.mem_singleton.mp hl with rfl
      rfl
  refine ⟨href, analyzeGraph_degenerate_safe.1 ⟨[], []⟩ href rfl, ?_⟩
  rw [analyzeGraph_degenerate_safe.2 _ 5 hval]
  rfl

/-! Toward C3: the PageRank iteration is a sub-probability distribution. -/

theorem outMap_foldl (links : List Link) (m : String → Option ℚ) (x : String) :
    (links.foldl (fun m l => fun y => if y = l.source then (m y).map (· + l.value) else m y) m) x
      = (m x).map
          (fun v => v + ((links.filter (fun l => l.source == x)).map (fun l => l.value)).sum) := by
  induction links generalizing m with
  | nil =>
    cases hm : m x <;> simp [hm]
  | cons a ls ih =>
    rw [List.foldl_cons, ih]
    by_cases hx : x = a.source
    · rw [if_pos hx]
      rw [Option.map_map]
      have hpred : (a.source == x) = true := by rw [beq_iff_eq]; exact hx.symm
      rw [List.filter_cons, if_pos hpred]
      cases hm : m x with
      | none => rfl
      | some v =>
        simp only [Option.map_some', Function.comp_apply, List.map_cons, List.sum_cons]
        rw [add_assoc]
    · rw [if_neg hx]
      have hpred : (a.source == x) = false := by
        rw [beq_eq_false_iff_ne]
        exact fun hc => hx hc.symm
      rw [List.filter_cons, if_neg (by rw [hpred]; exact Bool.false_ne_true)]

theorem outMap_eq (nodes : List Node) (links : List Link) (x : String) :
    outMap nodes links x =
      if x ∈ nodeIds nodes
      then some ((links.filter (fun l => l.source == x)).map (fun l => l.value)).sum
      else none := by
  unfold outMap
  rw [outMap_foldl]
  by_cases hx : x ∈ nodeIds nodes
  · rw [if_pos hx, if_pos hx, Option.map_some']
    rw [zero_add]
  · rw [if_neg hx, if_neg hx]
    rfl

theorem sourceDegree_pos (nodes : List Node) (links : List Link)
    (hval : ∀ l ∈ links, 0 ≤ l.value) (s : String) :
    0 < sourceDegree (outMap nodes links) s := by
  unfold sourceDegree
  rw [outMap_eq]
  by_cases hs : s ∈ nodeIds nodes
  · rw [if_pos hs]
    simp only
    split_ifs with h0
    · norm_num
    · have hnn : 0 ≤ ((links.filter (fun l => l.source == s)).map (fun l => l.value)).sum := by
        apply List.sum_nonneg
        intro x hx
        obtain ⟨l, hl, rfl⟩ := List.mem_map.mp hx
        exact hval l (List.mem_filter.mp hl).1
      exact lt_of_le_of_ne hnn (Ne.symm h0)
  · rw [if_neg hs]
    norm_num

theorem prStep_foldl (nodes : List Node) (links : List Link) (outM : String → Option ℚ)
    (pageRanks : String → Option ℚ) :
    ∀ (nds : List Node) (init : String → Option ℚ) (x : String),
      (nds.foldl (fun newRanks node =>
        fun y => if y = node.id then some (newRankOf nodes links outM pageRanks node.id)
                 else newRanks y) init) x =
      if x ∈ nodeIds nds then some (newRankOf nodes links outM pageRanks x) else init x := by
  intro nds
  induction nds with
  | nil => intro init x; simp [nodeIds]
  | cons a l ih =>
    intro init x
    rw [List.foldl_cons, ih]
    have hids : nodeIds (a :: l) = a.id :: nodeIds l := rfl
    by_cases hx : x ∈ nodeIds l
    · rw [if_pos hx, if_pos (by rw [hids]; exact List.mem_cons_of_mem _ hx)]
    · rw [if_neg hx]
      by_cases hxa : x = a.id
      · rw [if_pos hxa, if_pos (by rw [hids, hxa]; exact List.mem_cons_self _ _), hxa]
      · have hnc : x ∉ nodeIds (a :: l) := by
          rw [hids]
          intro hc
          rcases List.mem_cons.mp hc with h | h
          · exact hxa h
          · exact hx h
        rw [if_neg hxa, if_neg hnc]

theorem prStep_eq (nodes : List Node) (links : List Link) (outM : String → Option ℚ)
    (pageRanks : String → Option ℚ) (x : String) :
    prStep nodes links outM pageRanks x =
      if x ∈ nodeIds nodes then some (newRankOf nodes links outM pageRanks x) else none := by
  unfold prStep
  rw [prStep_foldl]

theorem pageRanksAfter_not_id (nodes : List Node) (links : List Link) (k : Nat)
    (x : String) (hx : x ∉ nodeIds nodes) : pageRanksAfter nodes links k x = none := by
  cases k with
  | zero => unfold pageRanksAfter; rw [if_neg hx]
  | succ k => unfold pageRanksAfter; rw [prStep_eq, if_neg hx]

theorem newRankOf_nonneg (nodes : List Node) (links : List Link)
    (pageRanks : String → Option ℚ) (hval : ∀ l ∈ links, 0 ≤ l.value)
    (hpr : ∀ x, 0 ≤ (pageRanks x).getD 0) (nid : String) :
    0 ≤ newRankOf nodes links (outMap nodes links) pageRanks nid := by
  unfold newRankOf
  have h1 : (0:ℚ) ≤ (1 - dampingFactor) / (nodes.length : ℚ) := by
    apply div_nonneg
    · unfold dampingFactor; norm_num
    · exact_mod_cast Nat.zero_le _
  have h2 : (0:ℚ) ≤ ((links.filter (fun l => l.target == nid)).map (fun l =>
      ((pageRanks l.source).getD 0 * l.value) / sourceDegree (outMap nodes links) l.source)).sum := by
    apply List.sum_nonneg
    intro x hx
    obtain ⟨l, hl, rfl⟩ := List.mem_map.mp hx
    apply div_nonneg
    · exact mul_nonneg (hpr l.source) (hval l (List.mem_filter.mp hl).1)
    · exact le_of_lt (sourceDegree_pos nodes links hval l.source)
  have h3 : (0:ℚ) ≤ dampingFactor := by unfold dampingFactor; norm_num
  exact add_nonneg h1 (mul_nonneg h3 h2)

theorem pageRanksAfter_nonneg (nodes : List Node) (links : List Link)
    (hval : ∀ l ∈ links, 0 ≤ l.value) :
    ∀ (k : Nat) (x : String), 0 ≤ (pageRanksAfter nodes links k x).getD 0 := by
  intro k
  induction k with
  | zero =>
    intro x
    unfold pageRanksAfter
    by_cases hx : x ∈ nodeIds nodes
    · rw [if_pos hx]
      simp only [Option.getD_some]
      apply div_nonneg
      · norm_num
      · exact_mod_cast Nat.zero_le _
    · rw [if_neg hx]
      exact le_refl 0
  | succ k ih =>
    intro x
    unfold pageRanksAfter
    rw [prStep_eq]
    by_cases hx : x ∈ nodeIds nodes
    · rw [if_pos hx]
      simp only [Option.getD_some]
      exact newRankOf_nonneg nodes links _ hval ih x
    · rw [if_neg hx]
      exact le_refl 0

/-- After at least one iteration, every node holds at least the damping
floor `(1-d)/N`. -/
theorem pageRanksAfter_lower (nodes : List Node) (links : List Link)
    (hval : ∀ l ∈ links, 0 ≤ l.value) (k : Nat) (x : String) (hx : x ∈ nodeIds nodes) :
    (1 - dampingFactor) / (nodes.length : ℚ) ≤
      (pageRanksAfter nodes links (k+1) x).getD 0 := by
  unfold pageRanksAfter
  rw [prStep_eq, if_pos hx]
  simp only [Option.getD_some]
  unfold newRankOf
  have h2 : (0:ℚ) ≤ dampingFactor * ((links.filter (fun l => l.target == x)).map (fun l =>
      ((pageRanksAfter nodes links k l.source).getD 0 * l.value) /
        sourceDegree (outMap nodes links) l.source)).sum := by
    apply mul_nonneg
    · unfold dampingFactor; norm_num
    · apply List.sum_nonneg
      intro y hy
      obtain ⟨l, hl, rfl⟩ := List.mem_map.mp hy
      apply div_nonneg
      · exact mul_nonneg (pageRanksAfter_nonneg nodes links hval k l.source)
          (hval l (List.mem_filter.mp hl).1)
      · exact le_of_lt (sourceDegree_pos nodes links hval l.source)
  linarith

/-- Sum of a per-node indicator over a duplicate-free node list. -/
theorem sum_indicator_nodup (nodes : List Node) (hnd : (nodeIds nodes).Nodup)
    (t : String) (c : ℚ) :
    (nodes.map (fun n => if t = n.id then c else 0)).sum =
      if t ∈ nodeIds nodes then c else 0 := by
  induction nodes with
  | nil => simp [nodeIds]
  | cons a l ih =>
    have hids : nodeIds (a :: l) = a.id :: nodeIds l := rfl
    rw [hids] at hnd
    obtain ⟨hna, hnd'⟩ := List.nodup_cons.mp hnd
    rw [List.map_cons, List.sum_cons, ih hnd']
    by_cases hta : t = a.id
    · rw [if_pos hta, if_neg (by rw [hta]; exact hna),
        if_pos (by rw [hids, hta]; exact List.mem_cons_self _ _)]
      rw [add_zero]
    · rw [if_neg hta, zero_add]
      by_cases htl : t ∈ nodeIds l
      · rw [if_pos htl, if_pos (by rw [hids]; exact List.mem_cons_of_mem _ htl)]
      · have : t ∉ nodeIds (a :: l) := by
          rw [hids]
          intro hc
          rcases List.mem_cons.mp hc with h | h
          · exact hta h
          · exact htl h
        rw [if_neg htl, if_neg this]

/-- Grouping by target: the per-node sums of incoming-link values are at
most the total over all links (links to unknown targets are dropped). -/
theorem sum_incoming_le (nodes : List Node) (links : List Link)
    (hnd : (nodeIds nodes).Nodup) (g : Link → ℚ) (hg : ∀ l ∈ links, 0 ≤ g l) :
    (nodes.map (fun n => ((links.filter (fun l => l.target == n.id)).map g).sum)).sum
      ≤ (links.map g).sum := by
  induction links with
  | nil =>
    simp
  | cons a ls ih =>
    have hsplit : ∀ n ∈ nodes,
        ((List.filter (fun l => l.target == n.id) (a :: ls)).map g).sum =
        (if a.target = n.id then g a else 0) +
          ((ls.filter (fun l => l.target == n.id)).map g).sum := by
      intro n _
      rw [List.filter_cons]
      by_cases h : a.target = n.id
      · rw [if_pos (by rw [beq_iff_eq]; exact h), if_pos h, List.map_cons, List.sum_cons]
      · rw [if_neg (by rw [beq_eq_false_iff_ne.mpr h]; exact Bool.false_ne_true), if_neg h,
          zero_add]
    rw [List.map_congr_left hsplit, List.sum_map_add, List.map_cons, List.sum_cons]
    have h1 : (nodes.map (fun n => if a.target = n.id then g a else 0)).sum ≤ g a := by
      rw [sum_indicator_nodup nodes hnd a.target (g a)]
      by_cases h : a.target ∈ nodeIds nodes
      · rw [if_pos h]
      · rw [if_neg h]
        exact hg a (List.mem_cons_self _ _)
    have h2 := ih (fun l hl => hg l (List.mem_cons_of_mem _ hl))
    linarith

/-- Grouping by source: a link sum that vanishes on unknown sources equals
the per-node sums of outgoing-link values. -/
theorem sum_by_source (nodes : List Node) (links : List Link)
    (hnd : (nodeIds nodes).Nodup) (g : Link → ℚ)
    (hg0 : ∀ l ∈ links, l.source ∉ nodeIds nodes → g l = 0) :
    (links.map g).sum =
      (nodes.map (fun n => ((links.filter (fun l => l.source == n.id)).map g).sum)).sum := by
  induction links with
  | nil => simp
  | cons a ls ih =>
    have hsplit : ∀ n ∈ nodes,
        ((List.filter (fun l => l.source == n.id) (a :: ls)).map g).sum =
        (if a.source = n.id then g a else 0) +
          ((ls.filter (fun l => l.source == n.id)).map g).sum := by
      intro n _
      rw [List.filter_cons]
      by_cases h : a.source = n.id
      · rw [if_pos (by rw [beq_iff_eq]; exact h), if_pos h, List.map_cons, List.sum_cons]
      · rw [if_neg (by rw [beq_eq_false_iff_ne.mpr h]; exact Bool.false_ne_true), if_neg h,
          zero_add]
    rw [List.map_congr_left hsplit, List.sum_map_add, List.map_cons, List.sum_cons]
    rw [sum_indicator_nodup nodes hnd a.source (g a)]
    rw [← ih (fun l hl hl' => hg0 l (List.mem_cons_of_mem _ hl) hl')]
    by_cases h : a.source ∈ nodeIds nodes
    · rw [if_pos h]
    · rw [if_neg h, hg0 a (List.mem_cons_self _ _) h]

theorem sum_map_const {α : Type} (l : List α) (c : ℚ) :
    (l.map (fun _ => c)).sum = l.length * c := by
  induction l with
  | nil => simp
  | cons a t ih =>
    rw [List.map_cons, List.sum_cons, ih, List.length_cons]
    push_cast
    ring

/-- The PageRank values form a sub-probability distribution at every
iteration: their sum over the (duplicate-free) node list never exceeds 1. -/
theorem pageRanksAfter_sum_le (nodes : List Node) (links : List Link)
    (hnd : (nodeIds nodes).Nodup) (hval : ∀ l ∈ links, 0 ≤ l.value) :
    ∀ k, (nodes.map (fun n => (pageRanksAfter nodes links k n.id).getD 0)).sum ≤ 1 := by
  intro k
  induction k with
  | zero =>
    have hterm : ∀ n ∈ nodes,
        (pageRanksAfter nodes links 0 n.id).getD 0 = 1 / (nodes.length : ℚ) := by
      intro n hn
      unfold pageRanksAfter
      rw [if_pos (show n.id ∈ nodeIds nodes from List.mem_map.mpr ⟨n, hn, rfl⟩)]
      rfl
    rw [List.map_congr_left hterm, sum_map_const]
    by_cases hN : nodes.length = 0
    · rw [hN]; norm_num
    · have hN' : (nodes.length : ℚ) ≠ 0 := Nat.cast_ne_zero.mpr hN
      rw [mul_one_div, div_self hN']
  | succ k ih =>
    by_cases hnil : nodes = []
    · subst hnil; simp
    have hN' : (nodes.length : ℚ) ≠ 0 :=
      Nat.cast_ne_zero.mpr (fun h => hnil (List.length_eq_zero.mp h))
    have hterm : ∀ n ∈ nodes,
        (pageRanksAfter nodes links (k+1) n.id).getD 0 =
        (1 - dampingFactor) / (nodes.length : ℚ) + dampingFactor *
          ((links.filter (fun l => l.target == n.id)).map (fun l =>
            ((pageRanksAfter nodes links k l.source).getD 0 * l.value) /
              sourceDegree (outMap nodes links) l.source)).sum := by
      intro n hn
      have hstep : pageRanksAfter nodes links (k+1) =
          prStep nodes links (outMap nodes links) (pageRanksAfter nodes links k) := rfl
      rw [hstep, prStep_eq,
        if_pos (show n.id ∈ nodeIds nodes from List.mem_map.mpr ⟨n, hn, rfl⟩)]
      rfl
    rw [List.map_congr_left hterm, List.sum_map_add, sum_map_const,
      List.sum_map_mul_left]
    rw [mul_comm ((nodes.length : ℚ)) _, div_mul_cancel₀ _ hN']
    -- bound the double sum by the previous iteration's total
    have hc_nonneg : ∀ l ∈ links, 0 ≤
        ((pageRanksAfter nodes links k l.source).getD 0 * l.value) /
          sourceDegree (outMap nodes links) l.source := by
      intro l hl
      apply div_nonneg
      · exact mul_nonneg (pageRanksAfter_nonneg nodes links hval k l.source) (hval l hl)
      · exact le_of_lt (sourceDegree_pos nodes links hval l.source)
    have hG1 := sum_incoming_le nodes links hnd _ hc_nonneg
    have hc0 : ∀ l ∈ links, l.source ∉ nodeIds nodes →
        ((pageRanksAfter nodes links k l.source).getD 0 * l.value) /
          sourceDegree (outMap nodes links) l.source = 0 := by
      intro l _ hl'
      rw [pageRanksAfter_not_id nodes links k l.source hl']
      simp
    have hG2 := sum_by_source nodes links hnd _ hc0
    have hper : ∀ n ∈ nodes,
        ((links.filter (fun l => l.source == n.id)).map (fun l =>
          ((pageRanksAfter nodes links k l.source).getD 0 * l.value) /
            sourceDegree (outMap nodes links) l.source)).sum ≤
        (pageRanksAfter nodes links k n.id).getD 0 := by
      intro n hn
      have hcongr : ∀ l ∈ links.filter (fun l => l.source == n.id),
          ((pageRanksAfter nodes links k l.source).getD 0 * l.value) /
            sourceDegree (outMap nodes links) l.source =
          ((pageRanksAfter nodes links k n.id).getD 0 /
            sourceDegree (outMap nodes links) n.id) * l.value := by
        intro l hl
        have hsrc : l.source = n.id := beq_iff_eq.mp (List.mem_filter.mp hl).2
        rw [hsrc, mul_div_right_comm]
      rw [List.map_congr_left hcongr, List.sum_map_mul_left]
      have hO := outMap_eq nodes links n.id
      rw [if_pos (show n.id ∈ nodeIds nodes from List.mem_map.mpr ⟨n, hn, rfl⟩)] at hO
      have hOnn : 0 ≤ ((links.filter (fun l => l.source == n.id)).map
          (fun l => l.value)).sum := by
        apply List.sum_nonneg
        intro x hx
        obtain ⟨l, hl, rfl⟩ := List.mem_map.mp hx
        exact hval l (List.mem_filter.mp hl).1
      have hdeg : sourceDegree (outMap nodes links) n.id =
          if ((links.filter (fun l => l.source == n.id)).map (fun l => l.value)).sum = 0
          then 1
          else ((links.filter (fun l => l.source == n.id)).map (fun l => l.value)).sum := by
        unfold sourceDegree
        rw [hO]
      by_cases hO0 : ((links.filter (fun l => l.source == n.id)).map
          (fun l => l.value)).sum = 0
      · rw [hO0, mul_zero]
        exact pageRanksAfter_nonneg nodes links hval k n.id
      · rw [hdeg, if_neg hO0, div_mul_cancel₀ _ hO0]
    have hS2 := List.sum_le_sum hper
    have hd0 : (0:ℚ) ≤ dampingFactor := by unfold dampingFactor; norm_num
    have hd1 : dampingFactor ≤ 1 := by unfold dampingFactor; norm_num
    have hS : (nodes.map (fun n =>
        ((links.filter (fun l => l.target == n.id)).map (fun l =>
          ((pageRanksAfter nodes links k l.source).getD 0 * l.value) /
            sourceDegree (outMap nodes links) l.source)).sum)).sum ≤ 1 :=
      le_trans hG1 (le_trans (le_of_eq hG2) (le_trans hS2 ih))
    have hdS := mul_le_mul_of_nonneg_left hS hd0
    rw [mul_one] at hdS
    linarith [hdS]

/-- **C3.** For every graph with at least one node (ids duplicate-free,
weights non-negative, per the data model), the PageRank values produced by
the fixed 100-iteration loop (damping 0.85) sum to at most 1 before
normalisation, and after normalisation by the maximum rank the maximum
importance (`pageRank`) value is exactly 1. -/
theorem calculateCentrality_pagerank_bounds (nodes : List Node) (links : List Link)
    (hne : nodes ≠ []) (hnd : (nodeIds nodes).Nodup) (hval : ∀ l ∈ links, 0 ≤ l.value) :
    (nodes.map (fun n => (pageRanksAfter nodes links iterations n.id).getD 0)).sum ≤ 1 ∧
    ((calculateCentrality nodes links).map (fun n => n.pageRank.getD 0)).max? = some 1 := by
  refine ⟨pageRanksAfter_sum_le nodes links hnd hval iterations, ?_⟩
  haveI : Std.Antisymm (fun (a b : ℚ) => a ≤ b) :=
    ⟨fun {a b : ℚ} (h : a ≤ b) (h' : b ≤ a) => le_antisymm h h'⟩
  have hdd : (nodeIds nodes).dedup = nodeIds nodes := List.dedup_eq_self.mpr hnd
  have hidsne : nodeIds nodes ≠ [] := by
    intro hc
    exact hne (List.map_eq_nil_iff.mp hc)
  have hvalsne : (((nodeIds nodes).dedup).map
      (fun i => (pageRanksAfter nodes links iterations i).getD 0)) ≠ [] := by
    rw [hdd]
    intro hc
    exact hidsne (List.map_eq_nil_iff.mp hc)
  cases hM : (((nodeIds nodes).dedup).map
      (fun i => (pageRanksAfter nodes links iterations i).getD 0)).max? with
  | none => exact absurd (List.max?_eq_none_iff.mp hM) hvalsne
  | some M =>
    obtain ⟨hMmem, hMub⟩ := (List.max?_eq_some_iff (fun a => le_refl a) max_choice
      (fun a b c => max_le_iff)).mp hM
    have hmaxR : maxRankOf nodes links = M := by
      unfold maxRankOf
      rw [hM]
      rfl
    have hNpos : (0:ℚ) < (nodes.length : ℚ) := by
      have := List.length_pos.mpr hne
      exact_mod_cast this
    have hfloor : (0:ℚ) < (1 - dampingFactor) / (nodes.length : ℚ) := by
      apply div_pos
      · unfold dampingFactor; norm_num
      · exact hNpos
    rw [hdd] at hMmem
    obtain ⟨i₀, hi₀, hMi⟩ := List.mem_map.mp hMmem
    have hMpos : 0 < M := by
      rw [← hMi]
      calc (0:ℚ) < (1 - dampingFactor)/(nodes.length:ℚ) := hfloor
        _ ≤ (pageRanksAfter nodes links iterations i₀).getD 0 := by
            have h99 : iterations = 99 + 1 := rfl
            rw [h99]
            exact pageRanksAfter_lower nodes links hval 99 i₀ hi₀
    have hout : (calculateCentrality nodes links).map (fun n => n.pageRank.getD 0) =
        nodes.map (fun n => (pageRanksAfter nodes links iterations n.id).getD 0 / M) := by
      unfold calculateCentrality
      rw [List.map_map]
      apply List.map_congr_left
      intro n _
      simp only [Function.comp_apply, Option.getD_some]
      rw [hmaxR]
    rw [hout]
    apply (List.max?_eq_some_iff (fun a => le_refl a) max_choice
      (fun a b c => max_le_iff)).mpr
    constructor
    · obtain ⟨n₀, hn₀, hn₀id⟩ := List.mem_map.mp hi₀
      apply List.mem_map.mpr
      refine ⟨n₀, hn₀, ?_⟩
      rw [hn₀id, hMi, div_self (ne_of_gt hMpos)]
    · intro b hb
      obtain ⟨n, hn, rfl⟩ := List.mem_map.mp hb
      rw [div_le_one hMpos]
      apply hMub
      apply List.mem_map.mpr
      exact ⟨n.id, List.mem_dedup.mpr
        (show n.id ∈ nodeIds nodes from List.mem_map.mpr ⟨n, hn, rfl⟩), rfl⟩

/-- Witness for C3: a single node with no links. -/
theorem calculateCentrality_pagerank_bounds_witness :
    ([⟨"A", 1, none, none⟩] : List Node) ≠ [] ∧
    (nodeIds [⟨"A", 1, none, none⟩]).Nodup ∧
    (([⟨"A", 1, none, none⟩] : List Node).map (fun n =>
      (pageRanksAfter [⟨"A", 1, none, none⟩] [] iterations n.id).getD 0)).sum ≤ 1 ∧
    ((calculateCentrality [⟨"A", 1, none, none⟩] []).map
      (fun n => n.pageRank.getD 0)).max? = some 1 :=
  ⟨by decide, by decide,
   (calculateCentrality_pagerank_bounds [⟨"A", 1, none, none⟩] [] (by decide) (by decide)
     (by intro l hl; cases hl)).1,
   (calculateCentrality_pagerank_bounds [⟨"A", 1, none, none⟩] [] (by decide) (by decide)
     (by intro l hl; cases hl)).2⟩

end GA

/-! # `FG` — `src/components/ForceGraph`

Types from `ForceGraph/types.ts`: the renderer's `Node`/`Link` carry many
optional visual fields (`color`, `size`, positions, …) that are never read
by the functions embedded here and are omitted; `source`/`target` are
stored as ids (see the module-level modelling note). -/

namespace FG

structure Node where
  id : String
  group : Int := 0
deriving DecidableEq

structure Link where
  source : String
  target : String
  value : ℚ := 1
  type : Option String := none
deriving DecidableEq

structure GraphData where
  nodes : List Node
  links : List Link
deriving DecidableEq

def nodeIds (nodes : List Node) : List String := nodes.map (·.id)

def RefInt (data : GraphData) : Prop :=
  ∀ l ∈ data.links, l.source ∈ nodeIds data.nodes ∧ l.target ∈ nodeIds data.nodes

instance (data : GraphData) : Decidable (RefInt data) := by
  unfold RefInt; infer_instance

/-- `useNeighborMap`: initialise an empty neighbour set per node, then add
both directions of every link (the same `buildAdjMap` construction as the
other modules). -/
def useNeighborMap (data : GraphData) : String → Option (List String) :=
  buildAdjMap (nodeIds data.nodes) (data.links.map (fun l => (l.source, l.target)))

/-- **C8.** For every graph whose link endpoints are existing node ids,
the adjacency map built by `useNeighborMap` is symmetric:
`b ∈ neighbors(a) ⟺ a ∈ neighbors(b)`. -/
theorem useNeighborMap_symmetric (data : GraphData) (href : RefInt data) :
    ∀ a b, b ∈ ((useNeighborMap data) a).getD [] ↔ a ∈ ((useNeighborMap data) b).getD [] := by
  have key : ∀ a b, b ∈ ((useNeighborMap data) a).getD [] →
      a ∈ ((useNeighborMap data) b).getD [] := by
    intro a b hab
    unfold useNeighborMap at hab ⊢
    rw [mem_buildAdjMap] at hab
    rw [mem_buildAdjMap]
    obtain ⟨ha, e, he, hcase⟩ := hab
    obtain ⟨l, hl, rfl⟩ := List.mem_map.mp he
    rcases hcase with ⟨h1, h2⟩ | ⟨h1, h2⟩
    · exact ⟨by rw [← h2]; exact (href l hl).2,
        (l.source, l.target), List.mem_map.mpr ⟨l, hl, rfl⟩, Or.inr ⟨h2, h1⟩⟩
    · exact ⟨by rw [← h2]; exact (href l hl).1,
        (l.source, l.target), List.mem_map.mpr ⟨l, hl, rfl⟩, Or.inl ⟨h2, h1⟩⟩
  exact fun a b => ⟨key a b, key b a⟩

/-- Witness for C8. -/
theorem useNeighborMap_symmetric_witness :
    RefInt ⟨[⟨"A", 0⟩, ⟨"B", 0⟩], [⟨"A", "B", 1, none⟩]⟩ ∧
    ("B" ∈ ((useNeighborMap ⟨[⟨"A", 0⟩, ⟨"B", 0⟩], [⟨"A", "B", 1, none⟩]⟩) "A").getD [] ↔
     "A" ∈ ((useNeighborMap ⟨[⟨"A", 0⟩, ⟨"B", 0⟩], [⟨"A", "B", 1, none⟩]⟩) "B").getD []) :=
  ⟨by decide, useNeighborMap_symmetric _ (by decide) "A" "B"⟩

/-! ## `linkCurvature.ts` -/

/-- Two links join the same unordered endpoint pair (either direction). -/
def isParallel (link l : Link) : Bool :=
  (l.source == link.source && l.target == link.target) ||
  (l.source == link.target && l.target == link.source)

/-- `calculateLinkCurvature(link, allLinks)` for the link at position `i`
of `allLinks`. `parallelLinks.indexOf(link)` compares by object identity;
for the enrichment call every array element is a distinct object, so the
index is the link's position among its parallels — the number of parallel
links strictly before position `i`. -/
def calculateLinkCurvature (allLinks : List Link) (i : Nat) : ℚ :=
  match allLinks[i]? with
  | none => 0
  | some link =>
    if link.source == link.target then 1/2
    else
      if (allLinks.filter (isParallel link)).length = 1 then 0
      else
        (1/2 : ℚ) * (((allLinks.take i).countP (isParallel link) : ℚ) -
          (((allLinks.filter (isParallel link)).length : ℚ) - 1) / 2)

theorem isParallel_self (l : Link) : isParallel l l = true := by
  unfold isParallel
  simp

theorem isParallel_same_pair (li lj : Link) (h : isParallel li lj = true) :
    ∀ l, isParallel li l = isParallel lj l := by
  intro l
  unfold isParallel at h ⊢
  simp only [Bool.or_eq_true, Bool.and_eq_true, beq_iff_eq] at h
  rcases h with ⟨h1, h2⟩ | ⟨h1, h2⟩ <;> rw [h1, h2]
  rw [Bool.or_comm]

theorem countP_take_le (l : List Link) (p : Link → Bool) (k : Nat) :
    (l.take k).countP p ≤ l.countP p := by
  conv_rhs => rw [← List.take_append_drop k l]
  rw [List.countP_append]
  omega

theorem countP_take_lt (l : List Link) (p : Link → Bool) {i j : Nat} (hij : i < j)
    {li : Link} (hi : l[i]? = some li) (hp : p li = true) :
    (l.take i).countP p < (l.take j).countP p := by
  have h1 : (l.take (i+1)).countP p = (l.take i).countP p + 1 := by
    rw [List.take_succ, hi]
    rw [List.countP_append]
    simp [hp]
  have h2 : (l.take (i+1)).countP p ≤ (l.take j).countP p := by
    have hmin : l.take (i+1) = (l.take j).take (i+1) := by
      rw [List.take_take, min_eq_left (by omega)]
    rw [hmin]
    exact countP_take_le _ p _
  omega

/-- **C5 (amended).** `calculateLinkCurvature` assigns: the fixed positive
curvature 0.5 to every self-link (all self-links on the same node receive
this same value); curvature 0 to a non-self link that is the only link
between its unordered endpoint pair; and, for `k > 1` non-self links
sharing an unordered pair (either direction counts), the fan
`0.5 × (index − (k−1)/2)` in original sequence order — so two distinct
non-self links on the same pair never receive equal curvature. -/
theorem calculateLinkCurvature_spec (allLinks : List Link) :
    (∀ i link, allLinks[i]? = some link → link.source = link.target →
      calculateLinkCurvature allLinks i = 1/2) ∧
    (∀ i link, allLinks[i]? = some link → link.source ≠ link.target →
      (allLinks.filter (isParallel link)).length = 1 →
      calculateLinkCurvature allLinks i = 0) ∧
    (∀ i link, allLinks[i]? = some link → link.source ≠ link.target →
      (allLinks.filter (isParallel link)).length ≠ 1 →
      calculateLinkCurvature allLinks i =
        (1/2 : ℚ) * (((allLinks.take i).countP (isParallel link) : ℚ) -
          (((allLinks.filter (isParallel link)).length : ℚ) - 1) / 2)) ∧
    (∀ i j li lj, i < j → allLinks[i]? = some li → allLinks[j]? = some lj →
      li.source ≠ li.target → isParallel li lj = true →
      calculateLinkCurvature allLinks i ≠ calculateLinkCurvature allLinks j) := by
  refine ⟨?_, ?_, ?_, ?_⟩
  · intro i link hi hself
    unfold calculateLinkCurvature
    rw [hi]
    dsimp only
    rw [if_pos (beq_iff_eq.mpr hself)]
  · intro i link hi hns hone
    unfold calculateLinkCurvature
    rw [hi]
    dsimp only
    rw [if_neg (by rw [beq_eq_false_iff_ne.mpr hns]; exact Bool.false_ne_true), if_pos hone]
  · intro i link hi hns hk
    unfold calculateLinkCurvature
    rw [hi]
    dsimp only
    rw [if_neg (by rw [beq_eq_false_iff_ne.mpr hns]; exact Bool.false_ne_true), if_neg hk]
  · intro i j li lj hij hi hj hns hpar
    have hnsj : lj.source ≠ lj.target := by
      have h := hpar
      unfold isParallel at h
      simp only [Bool.or_eq_true, Bool.and_eq_true, beq_iff_eq] at h
      rcases h with ⟨h1, h2⟩ | ⟨h1, h2⟩
      · intro hc; exact hns (by rw [← h1, ← h2]; exact hc)
      · intro hc; exact hns (by rw [← h1, ← h2]; exact hc.symm)
    have hpeq : ∀ l ∈ allLinks, isParallel li l = isParallel lj l :=
      fun l _ => isParallel_same_pair li lj hpar l
    have hfilter : allLinks.filter (isParallel li) = allLinks.filter (isParallel lj) := by
      apply List.filter_congr
      intro l hl
      rw [isParallel_same_pair li lj hpar l]
    have hpj : isParallel li lj = true := hpar
    have hplii : isParallel li li = true := isParallel_self li
    -- the pair has at least two links
    have hcount2 : 2 ≤ allLinks.countP (isParallel li) := by
      have ha := countP_take_lt allLinks (isParallel li) hij hi hplii
      have hb := countP_take_lt allLinks (isParallel li) (show j < j + 1 by omega) hj hpj
      have hc := countP_take_le allLinks (isParallel li) (j+1)
      omega
    have hklen : (allLinks.filter (isParallel li)).length =
        allLinks.countP (isParallel li) := by
      rw [List.countP_eq_length_filter]
    have hk1 : (allLinks.filter (isParallel li)).length ≠ 1 := by omega
    have hk1j : (allLinks.filter (isParallel lj)).length ≠ 1 := by
      rw [← hfilter]; exact hk1
    -- index counts before i and before j differ
    have hcountlt : (allLinks.take i).countP (isParallel li) <
        (allLinks.take j).countP (isParallel li) :=
      countP_take_lt allLinks (isParallel li) hij hi hplii
    have hcountj : (allLinks.take j).countP (isParallel lj) =
        (allLinks.take j).countP (isParallel li) := by
      apply List.countP_congr
      intro l hl
      rw [isParallel_same_pair li lj hpar l]
    unfold calculateLinkCurvature
    rw [hi, hj]
    dsimp only
    rw [if_neg (show ¬(li.source == li.target) = true by
        rw [beq_eq_false_iff_ne.mpr hns]; exact Bool.false_ne_true),
      if_neg hk1,
      if_neg (show ¬(lj.source == lj.target) = true by
        rw [beq_eq_false_iff_ne.mpr hnsj]; exact Bool.false_ne_true),
      if_neg hk1j]
    apply ne_of_lt
    rw [hcountj, ← hfilter]
    have hcast : ((allLinks.take i).countP (isParallel li) : ℚ) <
        ((allLinks.take j).countP (isParallel li) : ℚ) := by exact_mod_cast hcountlt
    have := (((allLinks.filter (isParallel li)).length : ℚ) - 1) / 2
    linarith

/-- Witness for C5: the spec scenario — 3 parallel links between `X` and
`Y` receive curvatures −0.5, 0, 0.5 in link order, pairwise distinct. -/
theorem calculateLinkCurvature_spec_witness :
    calculateLinkCurvature
      [⟨"X", "Y", 1, none⟩, ⟨"X", "Y", 1, none⟩, ⟨"X", "Y", 1, none⟩] 0 = -(1/2) ∧
    calculateLinkCurvature
      [⟨"X", "Y", 1, none⟩, ⟨"X", "Y", 1, none⟩, ⟨"X", "Y", 1, none⟩] 1 = 0 ∧
    calculateLinkCurvature
      [⟨"X", "Y", 1, none⟩, ⟨"X", "Y", 1, none⟩, ⟨"X", "Y", 1, none⟩] 2 = 1/2 ∧
    calculateLinkCurvature
        [⟨"X", "Y", 1, none⟩, ⟨"X", "Y", 1, none⟩, ⟨"X", "Y", 1, none⟩] 0 ≠
      calculateLinkCurvature
        [⟨"X", "Y", 1, none⟩, ⟨"X", "Y", 1, none⟩, ⟨"X", "Y", 1, none⟩] 1 :=
  ⟨of_decide_eq_true (by with_unfolding_all rfl),
   of_decide_eq_true (by with_unfolding_all rfl),
   of_decide_eq_true (by with_unfolding_all rfl),
   (calculateLinkCurvature_spec _).2.2.2 0 1 ⟨"X", "Y", 1, none⟩ ⟨"X", "Y", 1, none⟩
     (by decide) rfl rfl (by decide) (by decide)⟩

/-! ## `applyAutoLayout` (`ForceGraph/utils/graphLayouts.ts`)

`applyAutoLayout` inspects graph statistics and dispatches to one of four
layout routines; the claim is about the *selection*, so the dispatch is
embedded as a `LayoutChoice` value (`force` = the `return data` fallback).
The `parentCount` JS `Map` is embedded as an association list;
JS `Map.set` updates an existing key in place, and the code reads the map
only through `get` and the order-insensitive `every` over its values, for
which the remove-and-append update below is observationally equivalent.
`avgDegree` divides by `nodes.length` (JS `Infinity`/`NaN` on an empty
node list, where Lean's `ℚ` yields `0`); the claim restricts to non-empty
graphs, where both agree. -/

inductive LayoutChoice where
  | tree
  | dagre
  | circular
  | force
deriving DecidableEq

def mapSet (m : List (String × Nat)) (k : String) (v : Nat) : List (String × Nat) :=
  m.filter (fun p => p.1 != k) ++ [(k, v)]

def mapGet (m : List (String × Nat)) (k : String) : Option Nat :=
  (m.find? (fun p => p.1 == k)).map (fun p => p.2)

def mapKeys (m : List (String × Nat)) : List String := m.map (fun p => p.1)

def initZero (m : List (String × Nat)) (n : Node) : List (String × Nat) :=
  mapSet m n.id 0

def bumpTarget (m : List (String × Nat)) (l : Link) : List (String × Nat) :=
  mapSet m l.target ((mapGet m l.target).getD 0 + 1)

def parentCount (data : GraphData) : List (String × Nat) :=
  data.links.foldl bumpTarget (data.nodes.foldl initZero [])

def isTree (data : GraphData) : Bool :=
  (parentCount data).all (fun p => p.2 ≤ 1)

def hasLoops (data : GraphData) : Bool :=
  data.links.any (fun l => l.source == l.target)

def avgDegree (data : GraphData) : ℚ :=
  (data.links.length * 2 : ℚ) / (data.nodes.length : ℚ)

def applyAutoLayoutChoice (data : GraphData) : LayoutChoice :=
  if isTree data && !hasLoops data then .tree
  else if avgDegree data < 3 ∧ 10 < data.links.length then .dagre
  else if data.nodes.length < 50 ∧ hasLoops data = false then .circular
  else .force

/-- Spec-side selection rule, transcribed from the claim's words ("tree
layout if every node has at most one incoming link and no link is a
self-link; hierarchical if average degree `2×|links|/|nodes| < 3` and
`|links| > 10`; circular if `|nodes| < 50` and no self-link; otherwise
unchanged"), to be compared with `applyAutoLayoutChoice` from the code. -/
def autoLayoutSpecChoice (data : GraphData) : LayoutChoice :=
  if (∀ x ∈ nodeIds data.nodes, data.links.countP (fun l => l.target == x) ≤ 1) ∧
      (∀ l ∈ data.links, l.source ≠ l.target) then .tree
  else if (2 * data.links.length : ℚ) / (data.nodes.length : ℚ) < 3 ∧
      10 < data.links.length then .dagre
  else if data.nodes.length < 50 ∧ (∀ l ∈ data.links, l.source ≠ l.target) then .circular
  else .force

theorem mapGet_nil (x : String) : mapGet [] x = none := rfl

theorem mapGet_cons (q : String × Nat) (rest : List (String × Nat)) (x : String) :
    mapGet (q :: rest) x = if q.1 = x then some q.2 else mapGet rest x := by
  unfold mapGet
  by_cases h : q.1 = x
  · rw [@List.find?_cons_of_pos (String × Nat) (fun p => p.1 == x) q rest
      (beq_iff_eq.mpr h)]
    rw [if_pos h]
    rfl
  · rw [@List.find?_cons_of_neg (String × Nat) (fun p => p.1 == x) q rest
      (by simp [h])]
    rw [if_neg h]

theorem mapGet_mapSet (m : List (String × Nat)) (k : String) (v : Nat) (x : String) :
    mapGet (mapSet m k v) x = if x = k then some v else mapGet m x := by
  induction m with
  | nil =>
    unfold mapSet
    rw [List.filter_nil, List.nil_append, mapGet_cons, mapGet_nil]
    by_cases hx : x = k
    · rw [if_pos hx.symm, if_pos hx]
    · rw [if_neg (fun hc => hx hc.symm), if_neg hx]
  | cons q rest ih =>
    by_cases hqk : q.1 = k
    · have hfilter : (q :: rest).filter (fun p => p.1 != k) =
          rest.filter (fun p => p.1 != k) := by
        rw [List.filter_cons]
        rw [if_neg (by rw [hqk]; simp)]
      unfold mapSet at ih ⊢
      rw [hfilter, ih, mapGet_cons]
      by_cases hx : x = k
      · rw [if_pos hx, if_pos hx]
      · rw [if_neg hx, if_neg hx,
          if_neg (show ¬ q.1 = x from fun hc => hx (hc.symm.trans hqk))]
    · have hfilter : (q :: rest).filter (fun p => p.1 != k) =
          q :: rest.filter (fun p => p.1 != k) := by
        rw [List.filter_cons]
        rw [if_pos (by simp [hqk])]
      unfold mapSet at ih ⊢
      rw [hfilter, List.cons_append, mapGet_cons, mapGet_cons, ih]
      by_cases hqx : q.1 = x
      · have hxk : ¬ x = k := fun hc => hqk (hqx.trans hc)
        rw [if_pos hqx, if_neg hxk, if_pos hqx]
      · rw [if_neg hqx, if_neg hqx]

theorem mapKeys_nodup_mapSet (m : List (String × Nat)) (k : String) (v : Nat)
    (h : (mapKeys m).Nodup) : (mapKeys (mapSet m k v)).Nodup := by
  unfold mapKeys at h ⊢
  unfold mapSet
  rw [List.map_append]
  apply List.Nodup.append
  · exact ((List.filter_sublist m).map (fun p => p.1)).nodup h
  · exact List.nodup_singleton k
  · intro a ha hb
    simp only [List.map_cons, List.map_nil, List.mem_singleton] at hb
    subst hb
    obtain ⟨p, hp, hpk⟩ := List.mem_map.mp ha
    have hf := List.of_mem_filter hp
    rw [hpk] at hf
    simp at hf

theorem mapKeys_nodup_foldl {α : Type} (step : List (String × Nat) → α → List (String × Nat))
    (hstep : ∀ m a, (mapKeys m).Nodup → (mapKeys (step m a)).Nodup)
    (l : List α) : ∀ m, (mapKeys m).Nodup → (mapKeys (l.foldl step m)).Nodup := by
  induction l with
  | nil => intro m h; exact h
  | cons a rest ih =>
    intro m h
    rw [List.foldl_cons]
    exact ih _ (hstep m a h)

theorem parentCount_keys_nodup (data : GraphData) :
    (mapKeys (parentCount data)).Nodup := by
  unfold parentCount
  apply mapKeys_nodup_foldl bumpTarget
    (fun m l h => mapKeys_nodup_mapSet m l.target _ h)
  apply mapKeys_nodup_foldl initZero
    (fun m n h => mapKeys_nodup_mapSet m n.id 0 h)
  simp [mapKeys]

theorem mapGet_of_mem (m : List (String × Nat)) (h : (mapKeys m).Nodup)
    (p : String × Nat) (hp : p ∈ m) : mapGet m p.1 = some p.2 := by
  induction m with
  | nil => cases hp
  | cons q rest ih =>
    rw [mapKeys, List.map_cons, List.nodup_cons] at h
    rcases List.mem_cons.mp hp with rfl | hp'
    · rw [mapGet_cons, if_pos rfl]
    · have hqp : ¬ q.1 = p.1 := by
        intro hc
        exact h.1 (hc ▸ List.mem_map.mpr ⟨p, hp', rfl⟩)
      rw [mapGet_cons, if_neg hqp]
      exact ih h.2 hp'

theorem all_le_one_iff (m : List (String × Nat)) (h : (mapKeys m).Nodup) :
    (m.all fun p => p.2 ≤ 1) = true ↔ ∀ k v, mapGet m k = some v → v ≤ 1 := by
  constructor
  · intro hall k v hget
    unfold mapGet at hget
    cases hf : m.find? (fun p => p.1 == k) with
    | none => rw [hf] at hget; cases hget
    | some p =>
      rw [hf] at hget
      have hpm := List.mem_of_find?_eq_some hf
      have hv : p.2 = v := by simpa using hget
      rw [← hv]
      exact of_decide_eq_true (List.all_eq_true.mp hall p hpm)
  · intro hg
    rw [List.all_eq_true]
    intro p hp
    exact decide_eq_true (hg p.1 p.2 (mapGet_of_mem m h p hp))

theorem mapGet_initFold (nodes : List Node) :
    ∀ (m : List (String × Nat)) (x : String),
      mapGet (nodes.foldl initZero m) x =
        if x ∈ nodeIds nodes then some 0 else mapGet m x := by
  induction nodes with
  | nil => intro m x; simp [nodeIds]
  | cons n rest ih =>
    intro m x
    rw [List.foldl_cons]
    rw [ih (initZero m n) x]
    unfold initZero
    rw [mapGet_mapSet]
    have hmem : x ∈ nodeIds (n :: rest) ↔ x = n.id ∨ x ∈ nodeIds rest := by
      unfold nodeIds
      rw [List.map_cons, List.mem_cons]
    by_cases h1 : x ∈ nodeIds rest
    · rw [if_pos h1, if_pos (hmem.mpr (Or.inr h1))]
    · rw [if_neg h1]
      by_cases h2 : x = n.id
      · rw [if_pos h2, if_pos (hmem.mpr (Or.inl h2))]
      · rw [if_neg h2, if_neg (fun hc => (hmem.mp hc).elim h2 h1)]

theorem mapGet_linkFold (links : List Link) :
    ∀ (m : List (String × Nat)) (x : String),
      mapGet (links.foldl bumpTarget m) x =
        if links.any (fun l => l.target == x) then
          some ((mapGet m x).getD 0 + links.countP (fun l => l.target == x))
        else mapGet m x := by
  induction links with
  | nil => intro m x; simp
  | cons l rest ih =>
    intro m x
    rw [List.foldl_cons]
    rw [ih (bumpTarget m l) x]
    unfold bumpTarget
    rw [List.any_cons, List.countP_cons]
    by_cases hx : l.target = x
    · subst hx
      rw [beq_self_eq_true, Bool.true_or]
      rw [if_pos rfl, if_pos rfl]
      rw [mapGet_mapSet, if_pos rfl]
      by_cases hrest : (rest.any fun l' => l'.target == l.target) = true
      · rw [if_pos hrest]
        simp only [Option.getD_some]
        congr 1
        omega
      · rw [if_neg hrest]
        have hcount : rest.countP (fun l' => l'.target == l.target) = 0 := by
          rw [List.countP_eq_zero]
          intro a ha hc
          exact hrest (List.any_eq_true.mpr ⟨a, ha, hc⟩)
        rw [hcount]
    · have hbeq : (l.target == x) = false := beq_eq_false_iff_ne.mpr hx
      rw [hbeq, Bool.false_or, if_neg Bool.false_ne_true,
        mapGet_mapSet, if_neg (show ¬ x = l.target from fun hc => hx hc.symm)]
      by_cases hrest : (rest.any fun l' => l'.target == x) = true
      · rw [if_pos hrest, if_pos hrest]
        exact congrArg some (by omega)
      · rw [if_neg hrest, if_neg hrest]

theorem mapGet_parentCount (data : GraphData) (x : String) :
    mapGet (parentCount data) x =
      if x ∈ nodeIds data.nodes ∨ data.links.any (fun l => l.target == x) = true then
        some (data.links.countP (fun l => l.target == x))
      else none := by
  unfold parentCount
  rw [mapGet_linkFold data.links _ x, mapGet_initFold data.nodes [] x]
  by_cases hn : x ∈ nodeIds data.nodes
  · by_cases ha : data.links.any (fun l => l.target == x) = true
    · rw [if_pos ha, if_pos hn, if_pos (Or.inl hn)]
      simp
    · rw [if_neg ha, if_pos hn, if_pos (Or.inl hn)]
      have hcount : data.links.countP (fun l => l.target == x) = 0 := by
        rw [List.countP_eq_zero]
        intro a hal hc
        exact ha (List.any_eq_true.mpr ⟨a, hal, hc⟩)
      rw [hcount]
  · by_cases ha : data.links.any (fun l => l.target == x) = true
    · rw [if_pos ha, if_neg hn, if_pos (Or.inr ha)]
      simp [mapGet]
    · rw [if_neg ha, if_neg hn, if_neg (fun hc => hc.elim hn ha)]
      simp [mapGet]

theorem isTree_iff (data : GraphData) (href : RefInt data) :
    isTree data = true ↔
      ∀ x ∈ nodeIds data.nodes, data.links.countP (fun l => l.target == x) ≤ 1 := by
  unfold isTree
  rw [all_le_one_iff _ (parentCount_keys_nodup data)]
  constructor
  · intro h x hx
    exact h x _ (by rw [mapGet_parentCount data x, if_pos (Or.inl hx)])
  · intro h k v hget
    rw [mapGet_parentCount data k] at hget
    by_cases hc : k ∈ nodeIds data.nodes ∨ data.links.any (fun l => l.target == k) = true
    · rw [if_pos hc] at hget
      have hv : v = data.links.countP (fun l => l.target == k) :=
        (Option.some_injective _ hget).symm
      subst hv
      rcases hc with hmem | hany
      · exact h k hmem
      · obtain ⟨l, hl, hlk⟩ := List.any_eq_true.mp hany
        have hmem := (href l hl).2
        rw [beq_iff_eq.mp hlk] at hmem
        exact h k hmem
    · rw [if_neg hc] at hget
      cases hget

theorem hasLoops_false_iff (data : GraphData) :
    hasLoops data = false ↔ ∀ l ∈ data.links, l.source ≠ l.target := by
  unfold hasLoops
  rw [← Bool.not_eq_true, List.any_eq_true]
  push_neg
  constructor
  · intro h l hl
    exact fun hc => (h l hl) (beq_iff_eq.mpr hc)
  · intro h l hl
    rw [beq_eq_false_iff_ne.mpr (h l hl)]
    exact Bool.false_ne_true

/-- **C7.** For every non-empty graph whose links reference existing node
ids, `applyAutoLayout`'s selection agrees with the spec's priority order:
tree if every node has at most one incoming link and there is no
self-link; Dagre if average degree `2×|links|/|nodes| < 3` and
`|links| > 10`; circular if `|nodes| < 50` and no self-link; otherwise the
data is returned unchanged (force). -/
theorem applyAutoLayout_priority (data : GraphData) (href : RefInt data)
    (_hne : data.nodes ≠ []) :
    applyAutoLayoutChoice data = autoLayoutSpecChoice data := by
  unfold applyAutoLayoutChoice autoLayoutSpecChoice
  have h1 : (isTree data && !hasLoops data) = true ↔
      (∀ x ∈ nodeIds data.nodes, data.links.countP (fun l => l.target == x) ≤ 1) ∧
      (∀ l ∈ data.links, l.source ≠ l.target) := by
    rw [Bool.and_eq_true, Bool.not_eq_true', isTree_iff data href,
      hasLoops_false_iff data]
  have h2 : (avgDegree data < 3 ∧ 10 < data.links.length) ↔
      ((2 * data.links.length : ℚ) / (data.nodes.length : ℚ) < 3 ∧
        10 < data.links.length) := by
    unfold avgDegree
    rw [mul_comm]
  have h3 : (data.nodes.length < 50 ∧ hasLoops data = false) ↔
      (data.nodes.length < 50 ∧ ∀ l ∈ data.links, l.source ≠ l.target) := by
    rw [hasLoops_false_iff data]
  exact if_congr h1 rfl (if_congr h2 rfl (if_congr h3 rfl rfl))

/-- Witness for C7: the spec scenario — a star with center `Z` and 5
leaves selects the tree layout, matching the spec-side rule. -/
theorem applyAutoLayout_priority_witness :
    RefInt ⟨[⟨"Z", 0⟩, ⟨"L1", 0⟩, ⟨"L2", 0⟩, ⟨"L3", 0⟩, ⟨"L4", 0⟩, ⟨"L5", 0⟩],
      [⟨"Z", "L1", 1, none⟩, ⟨"Z", "L2", 1, none⟩, ⟨"Z", "L3", 1, none⟩,
       ⟨"Z", "L4", 1, none⟩, ⟨"Z", "L5", 1, none⟩]⟩ ∧
    applyAutoLayoutChoice ⟨[⟨"Z", 0⟩, ⟨"L1", 0⟩, ⟨"L2", 0⟩, ⟨"L3", 0⟩, ⟨"L4", 0⟩, ⟨"L5", 0⟩],
      [⟨"Z", "L1", 1, none⟩, ⟨"Z", "L2", 1, none⟩, ⟨"Z", "L3", 1, none⟩,
       ⟨"Z", "L4", 1, none⟩, ⟨"Z", "L5", 1, none⟩]⟩ =
      autoLayoutSpecChoice ⟨[⟨"Z", 0⟩, ⟨"L1", 0⟩, ⟨"L2", 0⟩, ⟨"L3", 0⟩, ⟨"L4", 0⟩, ⟨"L5", 0⟩],
        [⟨"Z", "L1", 1, none⟩, ⟨"Z", "L2", 1, none⟩, ⟨"Z", "L3", 1, none⟩,
         ⟨"Z", "L4", 1, none⟩, ⟨"Z", "L5", 1, none⟩]⟩ ∧
    applyAutoLayoutChoice ⟨[⟨"Z", 0⟩, ⟨"L1", 0⟩, ⟨"L2", 0⟩, ⟨"L3", 0⟩, ⟨"L4", 0⟩, ⟨"L5", 0⟩],
      [⟨"Z", "L1", 1, none⟩, ⟨"Z", "L2", 1, none⟩, ⟨"Z", "L3", 1, none⟩,
       ⟨"Z", "L4", 1, none⟩, ⟨"Z", "L5", 1, none⟩]⟩ = LayoutChoice.tree :=
  ⟨by decide,
   applyAutoLayout_priority _ (by decide) (by decide),
   by decide⟩

/-- **C5 counterexample.** Two parallel self-links on the same node `X`
(the unordered pair `{X, X}`) both receive curvature 0.5 — equal — so "two
links sharing the same unordered endpoint pair never receive equal
curvature" fails, and so does the fan formula for this pair. -/
theorem calculateLinkCurvature_selfpair_cex :
    calculateLinkCurvature [⟨"X", "X", 1, none⟩, ⟨"X", "X", 1, none⟩] 0 = 1/2 ∧
    calculateLinkCurvature [⟨"X", "X", 1, none⟩, ⟨"X", "X", 1, none⟩] 1 = 1/2 ∧
    calculateLinkCurvature [⟨"X", "X", 1, none⟩, ⟨"X", "X", 1, none⟩] 0 =
      calculateLinkCurvature [⟨"X", "X", 1, none⟩, ⟨"X", "X", 1, none⟩] 1 :=
  ⟨rfl, rfl, rfl⟩

/-! ## `useGraphHighlight` pathway mode (`ForceGraph/hooks/useGraphHighlight.ts`)

With a focus node set and `pathwayMode` on, the hook runs a BFS over
`neighborMap` from the focus: `visited` starts as `{focus.id}`, the queue
as `[{id: focus.id, depth: 0}]`; each dequeued entry with
`depth >= maxDepth` is skipped, otherwise every not-yet-visited neighbor
is added to `visited` (and to `highlightedNodes`, which receives exactly
the same ids as `visited` and is embedded as the same list) and enqueued
at `depth + 1`.  Highlighted links are the tags `link-${index}` for links
with both endpoints in the visited set; they are embedded by their `Nat`
index (the tag map `i ↦ "link-" ++ i` is injective).  The JS `while`
loop runs until the queue empties; the embedding gives the recursion the
fuel `layerFuel`, and `pathwayLoop_layerRun` below shows this fuel
drains the queue completely (adding any extra fuel leaves the result
unchanged, see the last conjunct of the claim theorem). -/

def fgAdj (data : GraphData) : String → List String :=
  fun x => ((useNeighborMap data) x).getD []

def maxDepth : Nat := 3

def depthStep (d : Nat) :
    List String × List (String × Nat) → String → List String × List (String × Nat) :=
  fun st n => if n ∈ st.1 then st else (st.1 ++ [n], st.2 ++ [(n, d)])

def pathwayLoop (adj : String → List String) (maxD : Nat) :
    Nat → List String → List (String × Nat) → List String
  | 0, visited, _ => visited
  | _ + 1, visited, [] => visited
  | fuel + 1, visited, c :: rest =>
    if maxD ≤ c.2 then pathwayLoop adj maxD fuel visited rest
    else
      pathwayLoop adj maxD fuel
        ((adj c.1).foldl (depthStep (c.2 + 1)) (visited, [])).1
        (rest ++ ((adj c.1).foldl (depthStep (c.2 + 1)) (visited, [])).2)

def expandStep : List String × List String → String → List String × List String :=
  fun st n => if n ∈ st.1 then st else (st.1 ++ [n], st.2 ++ [n])

def expandNode (visited nbrs : List String) : List String × List String :=
  nbrs.foldl expandStep (visited, [])

def layerStep (adj : String → List String) :
    List String × List String → String → List String × List String :=
  fun st f => ((expandNode st.1 (adj f)).1, st.2 ++ (expandNode st.1 (adj f)).2)

def expandLayer (adj : String → List String) (visited F : List String) :
    List String × List String :=
  F.foldl (layerStep adj) (visited, [])

def layerRun (adj : String → List String) : Nat → List String → List String → List String
  | 0, visited, _ => visited
  | k + 1, visited, F =>
      layerRun adj k (expandLayer adj visited F).1 (expandLayer adj visited F).2

def layerFuel (adj : String → List String) : Nat → List String → List String → Nat
  | 0, _, F => F.length
  | k + 1, visited, F =>
      F.length + layerFuel adj k (expandLayer adj visited F).1 (expandLayer adj visited F).2

def pathwayNodes (data : GraphData) (focus : String) : List String :=
  pathwayLoop (fgAdj data) maxDepth
    (layerFuel (fgAdj data) maxDepth [focus] [focus])
    [focus] [(focus, 0)]

def pathwayLinks (data : GraphData) (focus : String) : List Nat :=
  (List.range data.links.length).filter (fun i =>
    ((data.links[i]?).map (fun l =>
      decide (l.source ∈ pathwayNodes data focus) &&
      decide (l.target ∈ pathwayNodes data focus))).getD false)

/-- Spec-side: "undirected distance ≤ k from the focus" over the neighbor
map, transcribed from the claim's words; `DistLE adj s k v` holds iff `v`
is reachable from `s` in at most `k` hops of `adj` (which is symmetric by
C8, so hop-count reachability is undirected distance). -/
def DistLE (adj : String → List String) (s : String) : Nat → String → Prop
  | 0, v => v = s
  | k + 1, v => DistLE adj s k v ∨ ∃ u, DistLE adj s k u ∧ v ∈ adj u

theorem foldl_acc_shift {α β : Type} (g : List String × List α → β → List String × List α)
    (hg : ∀ v acc b, g (v, acc) b = ((g (v, []) b).1, acc ++ (g (v, []) b).2))
    (l : List β) :
    ∀ v acc, l.foldl g (v, acc) = ((l.foldl g (v, [])).1, acc ++ (l.foldl g (v, [])).2) := by
  induction l with
  | nil => intro v acc; simp
  | cons b rest ih =>
    intro v acc
    rw [List.foldl_cons, List.foldl_cons]
    rw [hg v acc b]
    rw [ih (g (v, []) b).1 (acc ++ (g (v, []) b).2)]
    rw [show rest.foldl g (g (v, []) b) =
        rest.foldl g ((g (v, []) b).1, (g (v, []) b).2) from by rw [Prod.mk.eta]]
    rw [ih (g (v, []) b).1 (g (v, []) b).2]
    rw [List.append_assoc]

theorem expandStep_shift (v : List String) (acc : List String) (b : String) :
    expandStep (v, acc) b = ((expandStep (v, []) b).1, acc ++ (expandStep (v, []) b).2) := by
  unfold expandStep
  by_cases hb : b ∈ v <;> simp [hb]

theorem layerStep_shift (adj : String → List String) (v : List String)
    (acc : List String) (b : String) :
    layerStep adj (v, acc) b =
      ((layerStep adj (v, []) b).1, acc ++ (layerStep adj (v, []) b).2) := by
  unfold layerStep
  simp

theorem depthFold_expandNode (d : Nat) (nbrs : List String) :
    ∀ (visited : List String) (accN : List String),
      nbrs.foldl (depthStep d) (visited, accN.map (fun n => (n, d))) =
        ((nbrs.foldl expandStep (visited, accN)).1,
          (nbrs.foldl expandStep (visited, accN)).2.map (fun n => (n, d))) := by
  induction nbrs with
  | nil => intro visited accN; rfl
  | cons n rest ih =>
    intro visited accN
    rw [List.foldl_cons, List.foldl_cons]
    unfold depthStep expandStep
    by_cases hn : n ∈ visited
    · rw [if_pos (show n ∈ (visited, accN.map (fun n => (n, d))).1 from hn),
        if_pos (show n ∈ (visited, accN).1 from hn)]
      exact ih visited accN
    · rw [if_neg (show ¬ n ∈ (visited, accN.map (fun n => (n, d))).1 from hn),
        if_neg (show ¬ n ∈ (visited, accN).1 from hn)]
      have hmap : (accN.map (fun n => (n, d))) ++ [(n, d)] =
          (accN ++ [n]).map (fun n => (n, d)) := by
        rw [List.map_append]
        rfl
      dsimp only
      rw [hmap]
      exact ih (visited ++ [n]) (accN ++ [n])

theorem expandNode_spec (nbrs : List String) :
    ∀ visited : List String,
      (expandNode visited nbrs).1 = visited ++ (expandNode visited nbrs).2 ∧
      (∀ x, x ∈ (expandNode visited nbrs).2 ↔ x ∈ nbrs ∧ x ∉ visited) := by
  induction nbrs with
  | nil =>
    intro visited
    refine ⟨by simp [expandNode], fun x => by simp [expandNode]⟩
  | cons n rest ih =>
    intro visited
    by_cases hn : n ∈ visited
    · have hstep : expandNode visited (n :: rest) = expandNode visited rest := by
        unfold expandNode
        rw [List.foldl_cons]
        unfold expandStep
        rw [if_pos (show n ∈ (visited, ([] : List String)).1 from hn)]
      rw [hstep]
      obtain ⟨ha, hb⟩ := ih visited
      refine ⟨ha, fun x => ?_⟩
      rw [hb x]
      constructor
      · exact fun ⟨h1, h2⟩ => ⟨List.mem_cons_of_mem n h1, h2⟩
      · rintro ⟨h1, h2⟩
        rcases List.mem_cons.mp h1 with rfl | h1'
        · exact absurd hn h2
        · exact ⟨h1', h2⟩
    · have hstep : expandNode visited (n :: rest) =
          ((expandNode (visited ++ [n]) rest).1,
            n :: (expandNode (visited ++ [n]) rest).2) := by
        unfold expandNode
        rw [List.foldl_cons]
        have h1 : expandStep (visited, []) n = (visited ++ [n], [] ++ [n]) := by
          unfold expandStep
          rw [if_neg (show ¬ n ∈ (visited, ([] : List String)).1 from hn)]
        rw [h1]
        rw [foldl_acc_shift expandStep expandStep_shift rest (visited ++ [n]) ([] ++ [n])]
        rfl
      rw [hstep]
      obtain ⟨ha, hb⟩ := ih (visited ++ [n])
      constructor
      · dsimp only
        rw [ha, List.append_assoc]
        rfl
      · intro x
        dsimp only
        rw [List.mem_cons, hb x]
        constructor
        · rintro (rfl | ⟨h1, h2⟩)
          · exact ⟨List.mem_cons_self x rest, hn⟩
          · refine ⟨List.mem_cons_of_mem n h1, fun hc => h2 ?_⟩
            exact List.mem_append.mpr (Or.inl hc)
        · rintro ⟨h1, h2⟩
          rcases List.mem_cons.mp h1 with rfl | h1'
          · exact Or.inl rfl
          · by_cases hxn : x = n
            · exact Or.inl hxn
            · refine Or.inr ⟨h1', fun hc => ?_⟩
              rcases List.mem_append.mp hc with hc1 | hc2
              · exact h2 hc1
              · exact hxn (List.mem_singleton.mp hc2)

theorem expandLayer_cons (adj : String → List String) (f : String) (F' : List String)
    (visited : List String) :
    expandLayer adj visited (f :: F') =
      ((expandLayer adj (expandNode visited (adj f)).1 F').1,
        (expandNode visited (adj f)).2 ++
          (expandLayer adj (expandNode visited (adj f)).1 F').2) := by
  unfold expandLayer
  rw [List.foldl_cons]
  have h1 : layerStep adj (visited, []) f =
      ((expandNode visited (adj f)).1, [] ++ (expandNode visited (adj f)).2) := rfl
  rw [h1]
  rw [foldl_acc_shift (layerStep adj) (layerStep_shift adj) F'
    (expandNode visited (adj f)).1 ([] ++ (expandNode visited (adj f)).2)]
  rfl

theorem expandLayer_spec (adj : String → List String) (F : List String) :
    ∀ visited : List String,
      (expandLayer adj visited F).1 = visited ++ (expandLayer adj visited F).2 ∧
      (∀ x, x ∈ (expandLayer adj visited F).2 ↔ x ∉ visited ∧ ∃ f ∈ F, x ∈ adj f) := by
  induction F with
  | nil =>
    intro visited
    refine ⟨by simp [expandLayer], fun x => by simp [expandLayer]⟩
  | cons f F' ih =>
    intro visited
    obtain ⟨hen1, hen2⟩ := expandNode_spec (adj f) visited
    obtain ⟨hel1, hel2⟩ := ih (expandNode visited (adj f)).1
    rw [expandLayer_cons adj f F' visited]
    constructor
    · dsimp only
      rw [hel1, hen1, List.append_assoc]
    · intro x
      dsimp only
      constructor
      · intro hx
        rcases List.mem_append.mp hx with hx1 | hx2
        · obtain ⟨hadj, hnv⟩ := (hen2 x).mp hx1
          exact ⟨hnv, f, List.mem_cons_self f F', hadj⟩
        · obtain ⟨hnv1, f', hf', hadj⟩ := (hel2 x).mp hx2
          refine ⟨fun hc => hnv1 ?_, f', List.mem_cons_of_mem f hf', hadj⟩
          rw [hen1]
          exact List.mem_append.mpr (Or.inl hc)
      · rintro ⟨hxv, g, hg, hxg⟩
        by_cases hfresh : x ∈ (expandNode visited (adj f)).2
        · exact List.mem_append.mpr (Or.inl hfresh)
        · rcases List.mem_cons.mp hg with rfl | hg'
          · exact absurd ((hen2 x).mpr ⟨hxg, hxv⟩) hfresh
          · refine List.mem_append.mpr (Or.inr ((hel2 x).mpr ⟨?_, g, hg', hxg⟩))
            rw [hen1]
            intro hc
            rcases List.mem_append.mp hc with h1 | h2
            · exact hxv h1
            · exact hfresh h2

theorem pathwayLoop_skip (adj : String → List String) (maxD : Nat) :
    ∀ (Q : List (String × Nat)), (∀ e ∈ Q, maxD ≤ e.2) →
      ∀ fuel visited, pathwayLoop adj maxD (Q.length + fuel) visited Q = visited := by
  intro Q
  induction Q with
  | nil =>
    intro _ fuel visited
    rw [List.length_nil, Nat.zero_add]
    cases fuel <;> rfl
  | cons c rest ih =>
    intro hQ fuel visited
    have harith : (c :: rest).length + fuel = (rest.length + fuel) + 1 := by
      rw [List.length_cons]; omega
    rw [harith]
    show pathwayLoop adj maxD ((rest.length + fuel) + 1) visited (c :: rest) = visited
    simp only [pathwayLoop]
    rw [if_pos (hQ c (List.mem_cons_self c rest))]
    exact ih (fun e he => hQ e (List.mem_cons_of_mem c he)) fuel visited

theorem pathwayLoop_layer (adj : String → List String) (maxD : Nat) (d : Nat)
    (hd : d < maxD) (A : List String) :
    ∀ (visited B : List String) (fuel : Nat),
      pathwayLoop adj maxD (A.length + fuel) visited
        (A.map (fun n => (n, d)) ++ B.map (fun n => (n, d + 1))) =
      pathwayLoop adj maxD fuel (expandLayer adj visited A).1
        ((B ++ (expandLayer adj visited A).2).map (fun n => (n, d + 1))) := by
  induction A with
  | nil =>
    intro visited B fuel
    rw [List.length_nil, Nat.zero_add, List.map_nil, List.nil_append]
    have h0 : expandLayer adj visited [] = (visited, []) := rfl
    rw [h0]
    dsimp only
    rw [List.append_nil]
  | cons a A' ih =>
    intro visited B fuel
    have harith : (a :: A').length + fuel = (A'.length + fuel) + 1 := by
      rw [List.length_cons]; omega
    rw [harith, List.map_cons, List.cons_append]
    simp only [pathwayLoop]
    rw [if_neg (show ¬ maxD ≤ ((a, d) : String × Nat).2 from by dsimp only; omega)]
    have hdf := depthFold_expandNode (d + 1) (adj a) visited []
    rw [List.map_nil] at hdf
    rw [hdf]
    dsimp only
    rw [show List.foldl expandStep (visited, ([] : List String)) (adj a) =
        expandNode visited (adj a) from rfl]
    rw [List.append_assoc, ← List.map_append]
    rw [ih (expandNode visited (adj a)).1 (B ++ (expandNode visited (adj a)).2) fuel]
    rw [expandLayer_cons adj a A' visited]
    dsimp only
    rw [← List.append_assoc]

theorem pathwayLoop_layerRun (adj : String → List String) (maxD : Nat) :
    ∀ (k : Nat) (visited F : List String) (d fuel : Nat), d + k = maxD →
      pathwayLoop adj maxD (layerFuel adj k visited F + fuel) visited
        (F.map (fun n => (n, d))) = layerRun adj k visited F := by
  intro k
  induction k with
  | zero =>
    intro visited F d fuel hdk
    show pathwayLoop adj maxD (F.length + fuel) visited (F.map (fun n => (n, d))) = visited
    rw [show F.length = (F.map (fun n => (n, d))).length from (List.length_map F _).symm]
    apply pathwayLoop_skip
    intro e he
    obtain ⟨n, _, rfl⟩ := List.mem_map.mp he
    dsimp only
    omega
  | succ k ih =>
    intro visited F d fuel hdk
    have hd : d < maxD := by omega
    show pathwayLoop adj maxD
        ((F.length + layerFuel adj k (expandLayer adj visited F).1
          (expandLayer adj visited F).2) + fuel) visited (F.map (fun n => (n, d))) =
      layerRun adj k (expandLayer adj visited F).1 (expandLayer adj visited F).2
    rw [Nat.add_assoc]
    have hlayer := pathwayLoop_layer adj maxD d hd F visited []
      (layerFuel adj k (expandLayer adj visited F).1 (expandLayer adj visited F).2 + fuel)
    rw [List.map_nil, List.append_nil, List.nil_append] at hlayer
    rw [hlayer]
    exact ih (expandLayer adj visited F).1 (expandLayer adj visited F).2 (d + 1) fuel
      (by omega)

theorem layerRun_spec (adj : String → List String) (s : String) :
    ∀ (k : Nat) (visited F : List String) (j : Nat),
      (∀ v, v ∈ visited ↔ DistLE adj s j v) →
      (∀ v ∈ F, v ∈ visited) →
      (∀ v ∈ visited, v ∉ F → ∀ n ∈ adj v, n ∈ visited) →
      ∀ v, v ∈ layerRun adj k visited F ↔ DistLE adj s (j + k) v := by
  intro k
  induction k with
  | zero =>
    intro visited F j hA _ _ v
    exact hA v
  | succ k ih =>
    intro visited F j hA hB hC v
    show v ∈ layerRun adj k (expandLayer adj visited F).1 (expandLayer adj visited F).2 ↔ _
    obtain ⟨hel1, hel2⟩ := expandLayer_spec adj F visited
    have hA' : ∀ w, w ∈ (expandLayer adj visited F).1 ↔ DistLE adj s (j + 1) w := by
      intro w
      rw [hel1, List.mem_append]
      constructor
      · rintro (hw | hw)
        · exact Or.inl ((hA w).mp hw)
        · obtain ⟨hnv, f, hf, hadj⟩ := (hel2 w).mp hw
          exact Or.inr ⟨f, (hA f).mp (hB f hf), hadj⟩
      · rintro (hw | ⟨u, hu, hadj⟩)
        · exact Or.inl ((hA w).mpr hw)
        · have huv : u ∈ visited := (hA u).mpr hu
          by_cases hwv : w ∈ visited
          · exact Or.inl hwv
          · by_cases huF : u ∈ F
            · exact Or.inr ((hel2 w).mpr ⟨hwv, u, huF, hadj⟩)
            · exact absurd (hC u huv huF w hadj) hwv
    have hB' : ∀ w ∈ (expandLayer adj visited F).2, w ∈ (expandLayer adj visited F).1 := by
      intro w hw
      rw [hel1]
      exact List.mem_append.mpr (Or.inr hw)
    have hC' : ∀ w ∈ (expandLayer adj visited F).1, w ∉ (expandLayer adj visited F).2 →
        ∀ n ∈ adj w, n ∈ (expandLayer adj visited F).1 := by
      intro w hw hwF n hn
      rw [hel1] at hw
      have hwv : w ∈ visited := by
        rcases List.mem_append.mp hw with h1 | h2
        · exact h1
        · exact absurd h2 hwF
      rw [hel1]
      by_cases hnv : n ∈ visited
      · exact List.mem_append.mpr (Or.inl hnv)
      · by_cases hwFold : w ∈ F
        · exact List.mem_append.mpr (Or.inr ((hel2 n).mpr ⟨hnv, w, hwFold, hn⟩))
        · exact absurd (hC w hwv hwFold n hn) hnv
    have hidx : j + (k + 1) = (j + 1) + k := by omega
    rw [hidx]
    exact ih (expandLayer adj visited F).1 (expandLayer adj visited F).2 (j + 1) hA' hB' hC' v

/-- **C6.** In pathway mode with the default `maxDepth = 3` and a focus
node present in the graph, the BFS of `useGraphHighlight` highlights
exactly the nodes at undirected distance ≤ 3 from the focus, and exactly
the links (by index) whose both endpoints lie in that node set; moreover
the loop's fuel is irrelevant beyond the amount the embedding supplies
(the JS `while` loop having drained its queue by then). -/
theorem useGraphHighlight_pathway (data : GraphData) (focus : String)
    (_hfocus : focus ∈ nodeIds data.nodes) :
    (∀ v, v ∈ pathwayNodes data focus ↔ DistLE (fgAdj data) focus maxDepth v) ∧
    (∀ i, i ∈ pathwayLinks data focus ↔ ∃ l, data.links[i]? = some l ∧
      l.source ∈ pathwayNodes data focus ∧ l.target ∈ pathwayNodes data focus) ∧
    (∀ extra, pathwayLoop (fgAdj data) maxDepth
        (layerFuel (fgAdj data) maxDepth [focus] [focus] + extra) [focus] [(focus, 0)] =
      pathwayNodes data focus) := by
  have hrun : ∀ extra, pathwayLoop (fgAdj data) maxDepth
      (layerFuel (fgAdj data) maxDepth [focus] [focus] + extra) [focus] [(focus, 0)] =
      layerRun (fgAdj data) maxDepth [focus] [focus] := by
    intro extra
    have h := pathwayLoop_layerRun (fgAdj data) maxDepth maxDepth [focus] [focus] 0 extra
      (Nat.zero_add maxDepth)
    rw [show ([focus].map (fun n => (n, 0))) = [(focus, 0)] from rfl] at h
    exact h
  have hpn : pathwayNodes data focus = layerRun (fgAdj data) maxDepth [focus] [focus] :=
    hrun 0
  have hnodes : ∀ v, v ∈ pathwayNodes data focus ↔ DistLE (fgAdj data) focus maxDepth v := by
    intro v
    rw [hpn]
    have hspec := layerRun_spec (fgAdj data) focus maxDepth [focus] [focus] 0
      (fun w => by rw [List.mem_singleton]; exact Iff.rfl)
      (fun w hw => hw)
      (fun w hw hnw => absurd hw hnw)
      v
    rw [Nat.zero_add] at hspec
    exact hspec
  refine ⟨hnodes, ?_, fun extra => (hrun extra).trans hpn.symm⟩
  intro i
  constructor
  · intro hi
    obtain ⟨hrange, hpred⟩ := List.mem_filter.mp hi
    cases hl : data.links[i]? with
    | none =>
      rw [hl] at hpred
      simp at hpred
    | some l =>
      rw [hl] at hpred
      simp only [Option.map_some', Option.getD_some, Bool.and_eq_true,
        decide_eq_true_eq] at hpred
      exact ⟨l, rfl, hpred.1, hpred.2⟩
  · rintro ⟨l, hl, h1, h2⟩
    apply List.mem_filter.mpr
    constructor
    · apply List.mem_range.mpr
      by_contra hlt
      rw [List.getElem?_eq_none (Nat.le_of_not_lt hlt)] at hl
      cases hl
    · rw [hl]
      simp [h1, h2]

def chainData : GraphData :=
  ⟨[⟨"A", 0⟩, ⟨"B", 0⟩, ⟨"C", 0⟩, ⟨"D", 0⟩, ⟨"E", 0⟩],
   [⟨"A", "B", 1, none⟩, ⟨"B", "C", 1, none⟩, ⟨"C", "D", 1, none⟩, ⟨"D", "E", 1, none⟩]⟩

/-- Witness for C6: the spec scenario — focusing the leaf `A` of the chain
`A-B-C-D-E` highlights exactly `A,B,C,D` (all nodes within 3 hops, not the
depth-4 node `E`) and exactly the first three links. -/
theorem useGraphHighlight_pathway_witness :
    ("A" : String) ∈ nodeIds chainData.nodes ∧
    DistLE (fgAdj chainData) "A" maxDepth "D" ∧
    ¬ DistLE (fgAdj chainData) "A" maxDepth "E" ∧
    pathwayNodes chainData "A" = ["A", "B", "C", "D"] ∧
    pathwayLinks chainData "A" = [0, 1, 2] := by
  refine ⟨by decide, ?_, ?_, by decide, by decide⟩
  · exact ((useGraphHighlight_pathway chainData "A" (by decide)).1 "D").mp (by decide)
  · intro h
    exact absurd (((useGraphHighlight_pathway chainData "A" (by decide)).1 "E").mpr h)
      (by decide)

end FG

end KGG
